import Mathlib

/-!
Shallow embedding of the process-execution subsystem of
claude-desktop-commander (the TerminalManager class): bounded output
buffers, the session registry, the completion archive, incremental reads,
forced termination, and the timeout-versus-exit race.  Buffers are
modelled as lists of byte chunks, JavaScript Map objects as
insertion-ordered association lists, and the event-driven callbacks as a
step function on an explicit manager state.
-/

namespace DesktopCommander

/-- MAX_OUTPUT_SIZE = 20 * 1024 * 1024, the byte cap for stored output. -/
def MAX_OUTPUT_SIZE : Nat := 20 * 1024 * 1024

/-- MAX_BUFFER_CHUNKS = 2000, the cap on the number of stored chunks. -/
def MAX_BUFFER_CHUNKS : Nat := 2000

/-- The completion archive keeps at most 100 completed sessions. -/
def COMPLETED_SESSIONS_CAP : Nat := 100

/-- Grace period (ms) between SIGINT and SIGKILL in forceTerminate. -/
def GRACE_PERIOD_MS : Nat := 1000

/-- A Buffer delivered by one stream data event: a list of bytes. -/
abbrev Chunk := List Nat

/-- getTotalBufferSize: sum of the chunk sizes of a buffer list. -/
def getTotalBufferSize (buffers : List Chunk) : Nat :=
  (buffers.map List.length).sum

/-- The backward size scan of limitBufferSize, expressed on the reversed
buffer list (newest chunk first).  It mirrors the source loop
`for (let i = buffers.length - 1; i >= 0; i--)`: sizes are accumulated
from the newest chunk backward, and at the first chunk where the running
total exceeds MAX_OUTPUT_SIZE the loop keeps that chunk and splices away
everything older. -/
def sizeScanRev : List Chunk → Nat → List Chunk
  | [], _ => []
  | c :: older, total =>
    if total + c.length > MAX_OUTPUT_SIZE then [c]
    else c :: sizeScanRev older (total + c.length)

/-- The byte-size eviction pass of limitBufferSize (second half of the
source routine), as a pure function on the buffer list. -/
def limitBySize (buffers : List Chunk) : List Chunk :=
  (sizeScanRev buffers.reverse 0).reverse

/-- The chunk-count eviction pass of limitBufferSize (first half of the
source routine): `buffers.splice(0, buffers.length - MAX_BUFFER_CHUNKS)`
when over the cap. -/
def limitByChunkCount (buffers : List Chunk) : List Chunk :=
  if buffers.length > MAX_BUFFER_CHUNKS then
    buffers.drop (buffers.length - MAX_BUFFER_CHUNKS)
  else buffers

/-- TerminalManager.limitBufferSize: chunk-count eviction followed by
byte-size eviction, both in the same invocation. -/
def limitBufferSize (buffers : List Chunk) : List Chunk :=
  limitBySize (limitByChunkCount buffers)

/-- One stream data callback acting on a session buffer:
`chunks.push(Buffer.from(data))` followed by `this.limitBufferSize(chunks)`. -/
def pushChunk (buffers : List Chunk) (data : Chunk) : List Chunk :=
  limitBufferSize (buffers ++ [data])

/-- A session stream buffer after a whole sequence of data events,
starting from the empty buffer created at spawn. -/
def runAppends (chunks : List Chunk) : List Chunk :=
  chunks.foldl pushChunk []

/-! ### JavaScript Map objects

The manager keeps its sessions in `Map<number, ...>` objects.  A
JavaScript Map is insertion ordered: `set` of a fresh key appends at the
end, `set` of a present key overwrites in place, `delete` removes the
entry, and iteration (`keys()`) visits entries in insertion order.  We
model a Map as an association list. -/

/-- Map.has. -/
def mapHas (m : List (Nat × α)) (k : Nat) : Bool :=
  m.any (fun p => p.1 = k)

/-- Map.get (undefined becomes none). -/
def mapGet (m : List (Nat × α)) (k : Nat) : Option α :=
  (m.find? (fun p => p.1 = k)).map Prod.snd

/-- Map.set: overwrite in place when the key is present, append at the
end otherwise. -/
def mapSet (m : List (Nat × α)) (k : Nat) (v : α) : List (Nat × α) :=
  if mapHas m k then m.map (fun p => if p.1 = k then (k, v) else p)
  else m ++ [(k, v)]

/-- Map.delete. -/
def mapDelete (m : List (Nat × α)) (k : Nat) : List (Nat × α) :=
  m.filter (fun p => p.1 ≠ k)

/-! ### Session records and manager state -/

/-- TerminalSession: the registry record of an in-flight process.  Times
are natural-number milliseconds. -/
structure TerminalSession where
  pid : Nat
  stdoutChunks : List Chunk
  stderrChunks : List Chunk
  isBlocked : Bool
  startTime : Nat
deriving DecidableEq, Repr

/-- CompletedSession: the archived record of a finished process. -/
structure CompletedSession where
  pid : Nat
  stdoutChunks : List Chunk
  stderrChunks : List Chunk
  exitCode : Option Int
  startTime : Nat
  endTime : Nat
  outputTruncated : Bool
deriving DecidableEq, Repr

/-- The four Map fields of the TerminalManager class, plus a per-pid
record of the promise resolution of the pending executeCommand call.
JavaScript promises resolve at most once: the first resolve call fixes
the value (here, the isBlocked flag of the result) and later calls are
ignored.  `resolved` records that first value per pid. -/
structure ManagerState where
  sessions : List (Nat × TerminalSession)
  completedSessions : List (Nat × CompletedSession)
  responseStdoutChunks : List (Nat × List Chunk)
  responseStderrChunks : List (Nat × List Chunk)
  resolved : List (Nat × Bool)
deriving DecidableEq, Repr

/-- A fresh manager has empty maps. -/
def initialState : ManagerState := ⟨[], [], [], [], []⟩

/-- The event-loop callbacks registered by executeCommand, plus the
spawn itself.  Data events carry the delivered chunk; the exit event
carries the exit code and the wall-clock time used for endTime. -/
inductive Event where
  | spawn (pid : Nat) (time : Nat)
  | stdoutData (pid : Nat) (data : Chunk)
  | stderrData (pid : Nat) (data : Chunk)
  | exited (pid : Nat) (code : Option Int) (time : Nat)
  | timeoutFired (pid : Nat)
deriving DecidableEq, Repr

/-- One event-loop callback of executeCommand as a state transition.

* spawn: initialise both response buffers to [] and register the
  session (a new run also means a new, unresolved promise for the pid).
* stdoutData / stderrData: push a copy of the chunk into the response
  buffer, push it into the session buffer and apply limitBufferSize to
  the session buffer only, exactly as the source listeners do.
* exited: compute outputTruncated from the retained session buffers,
  archive the CompletedSession, evict the first-inserted archive entry
  when the archive grows past 100, delete the response buffers and the
  registry entry, and resolve the promise with isBlocked = false if it
  is still unresolved.
* timeoutFired: mark the session blocked, delete the response buffers
  and resolve the promise with isBlocked = true if it is still
  unresolved.  The source never clears this timer, so the callback runs
  even when the process already exited; its resolve call is then
  ignored.

Data and exit callbacks close over the session object; in every
reachable trace that object is the registry entry, so the transitions
look it up by pid and leave the state unchanged when it is absent. -/
def step (st : ManagerState) : Event → ManagerState
  | .spawn pid time =>
    { st with
      responseStdoutChunks := mapSet st.responseStdoutChunks pid []
      responseStderrChunks := mapSet st.responseStderrChunks pid []
      sessions := mapSet st.sessions pid ⟨pid, [], [], false, time⟩
      resolved := mapDelete st.resolved pid }
  | .stdoutData pid data =>
    match mapGet st.sessions pid with
    | none => st
    | some s =>
      { st with
        responseStdoutChunks :=
          match mapGet st.responseStdoutChunks pid with
          | none => st.responseStdoutChunks
          | some r => mapSet st.responseStdoutChunks pid (r ++ [data])
        sessions := mapSet st.sessions pid
          { s with stdoutChunks := limitBufferSize (s.stdoutChunks ++ [data]) } }
  | .stderrData pid data =>
    match mapGet st.sessions pid with
    | none => st
    | some s =>
      { st with
        responseStderrChunks :=
          match mapGet st.responseStderrChunks pid with
          | none => st.responseStderrChunks
          | some r => mapSet st.responseStderrChunks pid (r ++ [data])
        sessions := mapSet st.sessions pid
          { s with stderrChunks := limitBufferSize (s.stderrChunks ++ [data]) } }
  | .exited pid code time =>
    match mapGet st.sessions pid with
    | none => st
    | some s =>
      let stdoutSize := getTotalBufferSize s.stdoutChunks
      let stderrSize := getTotalBufferSize s.stderrChunks
      let truncated : Bool := decide (stdoutSize + stderrSize > MAX_OUTPUT_SIZE)
      let archived : CompletedSession :=
        ⟨pid, s.stdoutChunks, s.stderrChunks, code, s.startTime, time, truncated⟩
      let grown := mapSet st.completedSessions pid archived
      let kept :=
        if grown.length > COMPLETED_SESSIONS_CAP then
          match grown.head? with
          | some oldest => mapDelete grown oldest.1
          | none => grown
        else grown
      { st with
        responseStdoutChunks := mapDelete st.responseStdoutChunks pid
        responseStderrChunks := mapDelete st.responseStderrChunks pid
        completedSessions := kept
        sessions := mapDelete st.sessions pid
        resolved :=
          if mapHas st.resolved pid then st.resolved
          else mapSet st.resolved pid false }
  | .timeoutFired pid =>
    { st with
      sessions :=
        match mapGet st.sessions pid with
        | none => st.sessions
        | some s => mapSet st.sessions pid { s with isBlocked := true }
      responseStdoutChunks := mapDelete st.responseStdoutChunks pid
      responseStderrChunks := mapDelete st.responseStderrChunks pid
      resolved :=
        if mapHas st.resolved pid then st.resolved
        else mapSet st.resolved pid true }

/-- A whole event trace from a fresh manager. -/
def runEvents (events : List Event) : ManagerState :=
  events.foldl step initialState

/-- Delivery of a sequence of stdout data events to one pid. -/
def deliverStdout (st : ManagerState) (pid : Nat) (chunks : List Chunk) : ManagerState :=
  chunks.foldl (fun s c => step s (.stdoutData pid c)) st

/-- Delivery of a sequence of stderr data events to one pid. -/
def deliverStderr (st : ManagerState) (pid : Nat) (chunks : List Chunk) : ManagerState :=
  chunks.foldl (fun s c => step s (.stderrData pid c)) st

/-! ### Incremental reads -/

/-- TerminalManager.combineOutput: concatenated stdout bytes followed by
concatenated stderr bytes (never time interleaved). -/
def combineOutput (stdoutChunks stderrChunks : List Chunk) : List Nat :=
  stdoutChunks.flatten ++ stderrChunks.flatten

/-- The formatted summary built for a completed session: exit code, the
runtime rendered in seconds with two-decimal precision (modelled as the
rounded number of centiseconds of endTime - startTime, standing for
`((end - start) / 1000).toFixed(2)`), the truncation warning line, and
the final combined output bytes. -/
structure CompletionMessage where
  exitCode : Option Int
  runtimeCentiseconds : Nat
  truncationWarning : Bool
  finalOutput : List Nat
deriving DecidableEq, Repr

/-- TerminalManager.getNewOutput completed-session branch, as a message
value. -/
def formatCompleted (cs : CompletedSession) : CompletionMessage :=
  ⟨cs.exitCode, (cs.endTime - cs.startTime + 5) / 10, cs.outputTruncated,
    combineOutput cs.stdoutChunks cs.stderrChunks⟩

/-- The three shapes of a non-null getNewOutput return value: drained
output bytes of a running session, the literal string
`No new output available` (returned because an empty output string is
falsy in `output || marker`), or the formatted completion summary. -/
inductive OutputResult where
  | runningOutput (bytes : List Nat)
  | noNewOutput
  | completedMessage (m : CompletionMessage)
deriving DecidableEq, Repr

/-- TerminalManager.getNewOutput: drain a running session (returning the
marker instead of an empty string), or return the idempotent summary of
a completed one, or null.  The returned state records the buffer
clearing done in the running branch; the other branches leave the state
untouched. -/
def getNewOutput (st : ManagerState) (pid : Nat) : Option OutputResult × ManagerState :=
  match mapGet st.sessions pid with
  | some s =>
    let output := combineOutput s.stdoutChunks s.stderrChunks
    let cleared := mapSet st.sessions pid { s with stdoutChunks := [], stderrChunks := [] }
    (some (if output.isEmpty then .noNewOutput else .runningOutput output),
      { st with sessions := cleared })
  | none =>
    match mapGet st.completedSessions pid with
    | some cs => (some (.completedMessage (formatCompleted cs)), st)
    | none => (none, st)

/-! ### Forced termination -/

/-- The externally visible outcome of one forceTerminate call: its
return value, whether the interrupt signal was dispatched, and whether
the SIGKILL escalation timer was scheduled (with its delay in ms). -/
structure TerminateOutcome where
  result : Bool
  sigintSent : Bool
  killTimerScheduled : Bool
  graceMs : Nat
deriving DecidableEq, Repr

/-- TerminalManager.forceTerminate.  `sigintThrows` models
`process.kill` raising; the source catches the error, logs it and
returns false.  With no registered session the call returns false and
does nothing. -/
def forceTerminate (st : ManagerState) (pid : Nat) (sigintThrows : Bool) :
    TerminateOutcome :=
  match mapGet st.sessions pid with
  | none => ⟨false, false, false, 0⟩
  | some _ =>
    if sigintThrows then ⟨false, false, false, 0⟩
    else ⟨true, true, true, GRACE_PERIOD_MS⟩

/-- The escalation timer body scheduled by forceTerminate: at the later
time it sends SIGKILL exactly when the pid is still in the registry
(`if (this.sessions.has(pid))`). -/
def killTimerFires (later : ManagerState) (pid : Nat) : Bool :=
  mapHas later.sessions pid

/-! ### Pid freshness of spawns

The operating system never reuses the pid of a still-running process,
but it may hand out the pid of an exited one whose CompletedSession is
still archived.  `freshSpawns` marks the traces in which that reuse does
not happen. -/

/-- True when every spawn event of the trace uses a pid that is not in
the completion archive at that moment. -/
def freshSpawns : ManagerState → List Event → Bool
  | _, [] => true
  | st, e :: rest =>
    (match e with
      | .spawn pid _ => !mapHas st.completedSessions pid
      | _ => true) && freshSpawns (step st e) rest

/-- The CompletedSession the exit handler archives for a session. -/
def archiveOf (s : TerminalSession) (pid : Nat) (code : Option Int) (t : Nat) :
    CompletedSession :=
  ⟨pid, s.stdoutChunks, s.stderrChunks, code, s.startTime, t,
    decide (getTotalBufferSize s.stdoutChunks + getTotalBufferSize s.stderrChunks >
      MAX_OUTPUT_SIZE)⟩

/-- A pid is registered in at most one of the Session Registry and the
Completion Archive. -/
def DisjointMaps (st : ManagerState) : Prop :=
  ∀ pid, mapHas st.sessions pid = true → mapHas st.completedSessions pid = false

/-! ### Sample data used to instantiate theorems on concrete inputs -/

/-- A concrete archived session with the given pid. -/
def sampleCompleted (i : Nat) : CompletedSession :=
  ⟨i, [], [], some 0, 0, 0, false⟩

/-- A concrete archive holding n sessions with pids 0, ..., n-1 in
insertion order. -/
def sampleArchive (n : Nat) : List (Nat × CompletedSession) :=
  (List.range n).map (fun i => (i, sampleCompleted i))

/-- A concrete registry record with the given pid and empty buffers. -/
def sampleSession (pid : Nat) : TerminalSession :=
  ⟨pid, [], [], false, 0⟩

/-- A concrete manager state with one running session (pid 1) and its
response buffers, as left by a spawn. -/
def sampleState1 : ManagerState :=
  ⟨[(1, sampleSession 1)], [], [(1, [])], [(1, [])], []⟩

/-- A concrete manager state with one archived session (pid 9) and
nothing running. -/
def completedState9 : ManagerState :=
  ⟨[], [(9, sampleCompleted 9)], [], [], []⟩

/-- A concrete manager state with a full archive (100 entries, pids
0..99) and one running session with pid 200. -/
def bigState : ManagerState :=
  ⟨[(200, sampleSession 200)], sampleArchive 100, [], [], []⟩

/-- A 1 KiB chunk. -/
def chunk1k : Chunk := List.replicate 1024 0

/-- Exactly 25 MiB of stdout delivered as 25600 chunks of 1 KiB. -/
def produced25MiB : List Chunk := List.replicate 25600 chunk1k

/-- A concrete trace without pid reuse: two commands run to and past
completion. -/
def demoTrace : List Event :=
  [Event.spawn 1 0, Event.exited 1 (some 0) 3, Event.spawn 2 4]

/-- The session record left after the chunk-count eviction has reduced
the 25 MiB stdout stream to its newest 2000 KiB-chunks. -/
def retained2000 : TerminalSession :=
  ⟨1, List.replicate 2000 chunk1k, [], false, 0⟩

/-- A concrete running session holding one stdout and one stderr chunk. -/
def sampleSession2 : TerminalSession :=
  ⟨1, [[5]], [[6]], false, 0⟩

/-- A concrete manager state holding sampleSession2. -/
def sampleState2 : ManagerState :=
  ⟨[(1, sampleSession2)], [], [], [], []⟩

/-! ## Lemmas about the bounded output buffer -/

theorem getTotalBufferSize_append (l₁ l₂ : List Chunk) :
    getTotalBufferSize (l₁ ++ l₂) = getTotalBufferSize l₁ + getTotalBufferSize l₂ := by
  simp [getTotalBufferSize]

theorem getTotalBufferSize_reverse (l : List Chunk) :
    getTotalBufferSize l.reverse = getTotalBufferSize l := by
  simp [getTotalBufferSize, List.sum_reverse]

/-- The backward size scan returns an initial segment of the reversed
buffer list. -/
theorem sizeScanRev_eq_take (rev : List Chunk) (t : Nat) :
    ∃ k, sizeScanRev rev t = rev.take k := by
  induction rev generalizing t with
  | nil => exact ⟨0, rfl⟩
  | cons c older ih =>
    by_cases h : t + c.length > MAX_OUTPUT_SIZE
    · exact ⟨1, by simp [sizeScanRev, h]⟩
    · obtain ⟨k, hk⟩ := ih (t + c.length)
      exact ⟨k + 1, by simp [sizeScanRev, h, hk]⟩

/-- The byte-size pass retains a trailing segment of the buffer:
everything it drops is a front segment. -/
theorem limitBySize_suffix (b : List Chunk) :
    ∃ dropped, b = dropped ++ limitBySize b := by
  obtain ⟨k, hk⟩ := sizeScanRev_eq_take b.reverse 0
  refine ⟨(b.reverse.drop k).reverse, ?_⟩
  unfold limitBySize
  rw [hk]
  calc b = b.reverse.reverse := (List.reverse_reverse b).symm
    _ = (b.reverse.take k ++ b.reverse.drop k).reverse := by
        rw [List.take_append_drop]
    _ = (b.reverse.drop k).reverse ++ (b.reverse.take k).reverse := by
        rw [List.reverse_append]

/-- The chunk-count pass retains a trailing segment of the buffer. -/
theorem limitByChunkCount_suffix (b : List Chunk) :
    ∃ dropped, b = dropped ++ limitByChunkCount b := by
  unfold limitByChunkCount
  by_cases h : b.length > MAX_BUFFER_CHUNKS
  · exact ⟨b.take (b.length - MAX_BUFFER_CHUNKS), by
      simp [h, List.take_append_drop]⟩
  · exact ⟨[], by simp [h]⟩

/-- limitBufferSize retains a trailing segment of the buffer: eviction
only ever removes the oldest chunks. -/
theorem limitBufferSize_suffix (b : List Chunk) :
    ∃ dropped, b = dropped ++ limitBufferSize b := by
  obtain ⟨d₁, h₁⟩ := limitByChunkCount_suffix b
  obtain ⟨d₂, h₂⟩ := limitBySize_suffix (limitByChunkCount b)
  exact ⟨d₁ ++ d₂, by rw [limitBufferSize, List.append_assoc, ← h₂, ← h₁]⟩

/-- After the chunk-count pass, at most MAX_BUFFER_CHUNKS chunks remain. -/
theorem limitByChunkCount_length_le (b : List Chunk) :
    (limitByChunkCount b).length ≤ MAX_BUFFER_CHUNKS := by
  unfold limitByChunkCount
  by_cases h : b.length > MAX_BUFFER_CHUNKS
  · simp only [h, if_true, List.length_drop]
    omega
  · simp only [h, if_false]
    omega

theorem length_le_of_suffix {l s : List Chunk} (h : ∃ d, l = d ++ s) :
    s.length ≤ l.length := by
  obtain ⟨d, rfl⟩ := h
  simp

/-- limitBufferSize never leaves more than MAX_BUFFER_CHUNKS chunks. -/
theorem limitBufferSize_length_le (b : List Chunk) :
    (limitBufferSize b).length ≤ MAX_BUFFER_CHUNKS := by
  have h₁ := limitBySize_suffix (limitByChunkCount b)
  exact le_trans (length_le_of_suffix h₁) (limitByChunkCount_length_le b)

/-- Core bound of the backward size scan: everything it keeps except its
last element (the oldest retained chunk) fits under the byte cap
together with the bytes already accumulated. -/
theorem sizeScanRev_dropLast_le (rev : List Chunk) (t : Nat)
    (ht : t ≤ MAX_OUTPUT_SIZE) :
    t + getTotalBufferSize (sizeScanRev rev t).dropLast ≤ MAX_OUTPUT_SIZE := by
  induction rev generalizing t with
  | nil => simpa [sizeScanRev, getTotalBufferSize]
  | cons c older ih =>
    by_cases h : t + c.length > MAX_OUTPUT_SIZE
    · simpa [sizeScanRev, h, getTotalBufferSize]
    · have h' : t + c.length ≤ MAX_OUTPUT_SIZE := by omega
      have := ih (t + c.length) h'
      simp only [sizeScanRev, h, if_false]
      cases hs : sizeScanRev older (t + c.length) with
      | nil => simpa [getTotalBufferSize]
      | cons x xs =>
        rw [hs] at this
        simp only [List.dropLast_cons₂]
        simp only [getTotalBufferSize, List.map_cons, List.sum_cons] at this ⊢
        omega

theorem tail_reverse_eq (l : List Chunk) :
    l.reverse.tail = l.dropLast.reverse := by
  induction l using List.reverseRecOn with
  | nil => rfl
  | append_singleton xs x _ => simp

/-- After the byte-size pass, the retained bytes minus the oldest
retained chunk stay at or below MAX_OUTPUT_SIZE. -/
theorem limitBySize_tail_le (b : List Chunk) :
    getTotalBufferSize (limitBySize b).tail ≤ MAX_OUTPUT_SIZE := by
  have h := sizeScanRev_dropLast_le b.reverse 0 (Nat.zero_le _)
  unfold limitBySize
  rw [tail_reverse_eq, getTotalBufferSize_reverse]
  omega

/-- The same bound for the whole limitBufferSize routine. -/
theorem limitBufferSize_tail_le (b : List Chunk) :
    getTotalBufferSize (limitBufferSize b).tail ≤ MAX_OUTPUT_SIZE := by
  exact limitBySize_tail_le (limitByChunkCount b)

/-- The retained bytes exceed the cap by at most the size of the oldest
retained chunk. -/
theorem limitBySize_total_le (b : List Chunk) :
    getTotalBufferSize (limitBySize b) ≤
      MAX_OUTPUT_SIZE + ((limitBySize b).head?.map List.length).getD 0 := by
  have h := limitBySize_tail_le b
  cases hs : limitBySize b with
  | nil => simp [getTotalBufferSize]
  | cons x xs =>
    rw [hs] at h
    simp only [getTotalBufferSize, List.map_cons, List.sum_cons, List.head?_cons,
      Option.map, Option.getD, List.tail_cons] at h ⊢
    omega

/-- The backward size scan keeps the whole list when everything fits
under the byte cap. -/
theorem sizeScanRev_of_le (rev : List Chunk) (t : Nat)
    (h : t + getTotalBufferSize rev ≤ MAX_OUTPUT_SIZE) :
    sizeScanRev rev t = rev := by
  induction rev generalizing t with
  | nil => rfl
  | cons c older ih =>
    simp only [getTotalBufferSize, List.map_cons, List.sum_cons] at h
    have hc : ¬ t + c.length > MAX_OUTPUT_SIZE := by omega
    simp only [sizeScanRev, hc, if_false]
    rw [ih (t + c.length) (by simp only [getTotalBufferSize]; omega)]

/-- The byte-size pass is the identity on buffers within the byte cap. -/
theorem limitBySize_of_le (b : List Chunk)
    (h : getTotalBufferSize b ≤ MAX_OUTPUT_SIZE) :
    limitBySize b = b := by
  unfold limitBySize
  rw [sizeScanRev_of_le b.reverse 0 (by rw [getTotalBufferSize_reverse]; omega),
    List.reverse_reverse]

/-- limitBufferSize is the identity on buffers within both caps. -/
theorem limitBufferSize_of_le (b : List Chunk)
    (hn : b.length ≤ MAX_BUFFER_CHUNKS)
    (hs : getTotalBufferSize b ≤ MAX_OUTPUT_SIZE) :
    limitBufferSize b = b := by
  unfold limitBufferSize limitByChunkCount
  have h : ¬ b.length > MAX_BUFFER_CHUNKS := by omega
  rw [if_neg h, limitBySize_of_le b hs]

/-! ## Lemmas about sequences of appends -/

/-- Appending a within-bounds chunk sequence evicts nothing. -/
theorem foldl_pushChunk_of_le (cs : List Chunk) :
    ∀ b : List Chunk, (b ++ cs).length ≤ MAX_BUFFER_CHUNKS →
      getTotalBufferSize (b ++ cs) ≤ MAX_OUTPUT_SIZE →
      cs.foldl pushChunk b = b ++ cs := by
  induction cs with
  | nil => intro b _ _; simp
  | cons c rest ih =>
    intro b hn hs
    have hb : b ++ c :: rest = (b ++ [c]) ++ rest := by simp
    rw [hb] at hn hs
    have hstep : pushChunk b c = b ++ [c] := by
      apply limitBufferSize_of_le
      · calc (b ++ [c]).length ≤ ((b ++ [c]) ++ rest).length := by simp
          _ ≤ MAX_BUFFER_CHUNKS := hn
      · calc getTotalBufferSize (b ++ [c])
            ≤ getTotalBufferSize ((b ++ [c]) ++ rest) := by
              simp only [getTotalBufferSize_append]; omega
          _ ≤ MAX_OUTPUT_SIZE := hs
    rw [List.foldl_cons, hstep, ih (b ++ [c]) hn hs, List.append_assoc]
    rfl

/-- runAppends keeps the whole chunk sequence when it is within both
caps. -/
theorem runAppends_of_le (cs : List Chunk)
    (hn : cs.length ≤ MAX_BUFFER_CHUNKS)
    (hs : getTotalBufferSize cs ≤ MAX_OUTPUT_SIZE) :
    runAppends cs = cs := by
  have := foldl_pushChunk_of_le cs [] (by simpa) (by simpa)
  simpa [runAppends] using this

theorem getTotalBufferSize_replicate (n : Nat) (c : Chunk) :
    getTotalBufferSize (List.replicate n c) = n * c.length := by
  induction n with
  | zero => simp [getTotalBufferSize]
  | succ m ih =>
    simp only [List.replicate_succ, getTotalBufferSize, List.map_cons,
      List.sum_cons] at ih ⊢
    rw [ih]
    ring

/-- Uniform chunks whose two-thousandfold size fits under the byte cap:
a run of appends keeps exactly the newest MAX_BUFFER_CHUNKS of them. -/
theorem foldl_pushChunk_replicate (c : Chunk)
    (hc : MAX_BUFFER_CHUNKS * c.length ≤ MAX_OUTPUT_SIZE) :
    ∀ (n m : Nat), m ≤ MAX_BUFFER_CHUNKS →
      (List.replicate n c).foldl pushChunk (List.replicate m c) =
        List.replicate (min (m + n) MAX_BUFFER_CHUNKS) c := by
  intro n
  induction n with
  | zero =>
    intro m hm
    simp [Nat.min_eq_left hm]
  | succ k ih =>
    intro m hm
    rw [List.replicate_succ, List.foldl_cons]
    by_cases h : m < MAX_BUFFER_CHUNKS
    · have hstep : pushChunk (List.replicate m c) c = List.replicate (m + 1) c := by
        rw [pushChunk, ← List.replicate_succ']
        apply limitBufferSize_of_le
        · simpa using h
        · rw [getTotalBufferSize_replicate]
          calc (m + 1) * c.length ≤ MAX_BUFFER_CHUNKS * c.length :=
              Nat.mul_le_mul_right _ (by omega)
            _ ≤ MAX_OUTPUT_SIZE := hc
      rw [hstep, ih (m + 1) (by omega)]
      congr 1
      omega
    · have hm' : m = MAX_BUFFER_CHUNKS := by omega
      subst hm'
      have hstep : pushChunk (List.replicate MAX_BUFFER_CHUNKS c) c =
          List.replicate MAX_BUFFER_CHUNKS c := by
        rw [pushChunk, ← List.replicate_succ']
        unfold limitBufferSize limitByChunkCount
        rw [if_pos (by rw [List.length_replicate]; omega)]
        have hdrop : (List.replicate (MAX_BUFFER_CHUNKS + 1) c).drop
            ((List.replicate (MAX_BUFFER_CHUNKS + 1) c).length - MAX_BUFFER_CHUNKS) =
            List.replicate MAX_BUFFER_CHUNKS c := by
          rw [List.length_replicate]
          have h1 : MAX_BUFFER_CHUNKS + 1 - MAX_BUFFER_CHUNKS = 1 := by omega
          rw [h1, List.replicate_succ, List.drop_succ_cons, List.drop_zero]
        rw [hdrop]
        apply limitBySize_of_le
        rw [getTotalBufferSize_replicate]
        exact hc
      rw [hstep, ih MAX_BUFFER_CHUNKS (by omega)]
      have hmin : (MAX_BUFFER_CHUNKS + k) ⊓ MAX_BUFFER_CHUNKS =
          (MAX_BUFFER_CHUNKS + (k + 1)) ⊓ MAX_BUFFER_CHUNKS := by omega
      rw [hmin]

/-- Special case: starting from the empty buffer. -/
theorem runAppends_replicate (c : Chunk) (n : Nat)
    (hc : MAX_BUFFER_CHUNKS * c.length ≤ MAX_OUTPUT_SIZE) :
    runAppends (List.replicate n c) = List.replicate (min n MAX_BUFFER_CHUNKS) c := by
  have := foldl_pushChunk_replicate c hc n 0 (by omega)
  simpa [runAppends] using this

theorem flatten_replicate_singleton (n : Nat) (x : Nat) :
    (List.replicate n ([x] : Chunk)).flatten = List.replicate n x := by
  induction n with
  | zero => rfl
  | succ k ih => simp [List.replicate_succ, ih]

theorem sizeScanRev_singleton (c : Chunk) (t : Nat) : sizeScanRev [c] t = [c] := by
  simp only [sizeScanRev]
  split <;> rfl

theorem limitBySize_singleton (c : Chunk) : limitBySize [c] = [c] := by
  rw [limitBySize]
  simp [sizeScanRev_singleton]

theorem limitBufferSize_singleton (c : Chunk) : limitBufferSize [c] = [c] := by
  rw [limitBufferSize, limitByChunkCount]
  rw [if_neg (by simp [MAX_BUFFER_CHUNKS])]
  exact limitBySize_singleton c

theorem isEmpty_false_of_length_pos {l : List Nat} (h : 0 < l.length) :
    l.isEmpty = false := by
  cases l with
  | nil => simp at h
  | cons a as => rfl

/-! ## Lemmas about the Map model -/

section MapLemmas

variable {α : Type}

theorem mapHas_nil (k : Nat) : mapHas ([] : List (Nat × α)) k = false := rfl

theorem mapHas_cons (p : Nat × α) (rest : List (Nat × α)) (k : Nat) :
    mapHas (p :: rest) k = (decide (p.1 = k) || mapHas rest k) := by
  simp [mapHas]

theorem mapGet_nil (k : Nat) : mapGet ([] : List (Nat × α)) k = none := rfl

theorem mapGet_cons (p : Nat × α) (rest : List (Nat × α)) (k : Nat) :
    mapGet (p :: rest) k = if p.1 = k then some p.2 else mapGet rest k := by
  by_cases h : p.1 = k
  · rw [if_pos h]
    unfold mapGet
    rw [List.find?_cons_of_pos _ (by simpa using h)]
    rfl
  · rw [if_neg h]
    unfold mapGet
    rw [List.find?_cons_of_neg _ (by simpa using h)]

theorem mapDelete_cons (p : Nat × α) (rest : List (Nat × α)) (k : Nat) :
    mapDelete (p :: rest) k =
      if p.1 = k then mapDelete rest k else p :: mapDelete rest k := by
  by_cases h : p.1 = k
  · simp [mapDelete, List.filter_cons, h]
  · simp [mapDelete, List.filter_cons, h]

theorem mapHas_iff_mem_keys (m : List (Nat × α)) (k : Nat) :
    mapHas m k = true ↔ k ∈ m.map Prod.fst := by
  simp only [mapHas, List.any_eq_true, decide_eq_true_eq, List.mem_map]

theorem mapAppend_get (m : List (Nat × α)) (k : Nat) (v : α)
    (h : mapHas m k = false) : mapGet (m ++ [(k, v)]) k = some v := by
  induction m with
  | nil => simp [mapGet_cons]
  | cons p rest ih =>
    rw [mapHas_cons, Bool.or_eq_false_iff] at h
    have hp : ¬ (p.1 = k) := by simpa using h.1
    rw [List.cons_append, mapGet_cons, if_neg hp]
    exact ih h.2

theorem mapUpdate_get (m : List (Nat × α)) (k : Nat) (v : α)
    (h : mapHas m k = true) :
    mapGet (m.map (fun p => if p.1 = k then (k, v) else p)) k = some v := by
  induction m with
  | nil => simp [mapHas] at h
  | cons p rest ih =>
    by_cases hp : p.1 = k
    · rw [List.map_cons, if_pos hp, mapGet_cons, if_pos rfl]
    · rw [mapHas_cons, Bool.or_eq_true_iff] at h
      rcases h with h | h
      · exact absurd (by simpa using h) hp
      · rw [List.map_cons, if_neg hp, mapGet_cons, if_neg hp]
        exact ih h

theorem mapGet_mapSet_self (m : List (Nat × α)) (k : Nat) (v : α) :
    mapGet (mapSet m k v) k = some v := by
  unfold mapSet
  by_cases h : mapHas m k
  · rw [if_pos h]; exact mapUpdate_get m k v h
  · rw [if_neg h]; exact mapAppend_get m k v (by simpa using h)

theorem mapUpdate_get_ne (m : List (Nat × α)) (k k' : Nat) (v : α)
    (h : k' ≠ k) :
    mapGet (m.map (fun p => if p.1 = k then (k, v) else p)) k' = mapGet m k' := by
  induction m with
  | nil => rfl
  | cons p rest ih =>
    by_cases hp : p.1 = k
    · have hk1 : ¬ (((k, v) : Nat × α).1 = k') := fun hh => h hh.symm
      have hk2 : ¬ (p.1 = k') := fun hh => h (hp.symm.trans hh).symm
      rw [List.map_cons, if_pos hp, mapGet_cons, mapGet_cons, if_neg hk1, if_neg hk2]
      exact ih
    · rw [List.map_cons, if_neg hp, mapGet_cons, mapGet_cons]
      by_cases hk' : p.1 = k'
      · rw [if_pos hk', if_pos hk']
      · rw [if_neg hk', if_neg hk']
        exact ih

theorem mapAppend_get_ne (m : List (Nat × α)) (k k' : Nat) (v : α)
    (h : k' ≠ k) : mapGet (m ++ [(k, v)]) k' = mapGet m k' := by
  induction m with
  | nil =>
    have hk1 : ¬ (((k, v) : Nat × α).1 = k') := fun hh => h hh.symm
    simp only [List.nil_append, mapGet_cons, if_neg hk1, mapGet_nil]
  | cons p rest ih =>
    rw [List.cons_append, mapGet_cons, mapGet_cons]
    by_cases hk' : p.1 = k'
    · rw [if_pos hk', if_pos hk']
    · rw [if_neg hk', if_neg hk', ih]

theorem mapGet_mapSet_ne (m : List (Nat × α)) (k k' : Nat) (v : α)
    (h : k' ≠ k) : mapGet (mapSet m k v) k' = mapGet m k' := by
  unfold mapSet
  by_cases hm : mapHas m k
  · rw [if_pos hm]; exact mapUpdate_get_ne m k k' v h
  · rw [if_neg hm]; exact mapAppend_get_ne m k k' v h

theorem mapHas_map_update (m : List (Nat × α)) (k k' : Nat) (v : α) :
    mapHas (m.map (fun p => if p.1 = k then (k, v) else p)) k' = mapHas m k' := by
  induction m with
  | nil => rfl
  | cons p rest ih =>
    by_cases hp : p.1 = k
    · rw [List.map_cons, if_pos hp, mapHas_cons, mapHas_cons, ih, hp]
    · rw [List.map_cons, if_neg hp, mapHas_cons, mapHas_cons, ih]

theorem mapHas_mapSet (m : List (Nat × α)) (k k' : Nat) (v : α) :
    mapHas (mapSet m k v) k' = (mapHas m k' || decide (k' = k)) := by
  unfold mapSet
  by_cases hm : mapHas m k
  · rw [if_pos hm, mapHas_map_update]
    by_cases hk : k' = k
    · subst hk; simp [hm]
    · simp [hk]
  · rw [if_neg hm]
    have h1 : mapHas (m ++ [(k, v)]) k' = (mapHas m k' || mapHas [(k, v)] k') := by
      simp [mapHas, List.any_append]
    have h2 : mapHas [(k, v)] k' = decide (k' = k) := by
      simp only [mapHas, List.any_cons, List.any_nil, Bool.or_false]
      exact decide_eq_decide.mpr ⟨fun hh => hh.symm, fun hh => hh.symm⟩
    rw [h1, h2]

theorem mapHas_mapDelete_imp (m : List (Nat × α)) (k k' : Nat)
    (h : mapHas (mapDelete m k) k' = true) :
    mapHas m k' = true ∧ k' ≠ k := by
  simp only [mapDelete, mapHas, List.any_eq_true, decide_eq_true_eq] at h ⊢
  obtain ⟨p, hp, rfl⟩ := h
  rw [List.mem_filter] at hp
  exact ⟨⟨p, hp.1, rfl⟩, by simpa using hp.2⟩

theorem mapGet_mapDelete_ne (m : List (Nat × α)) (k k' : Nat) (h : k' ≠ k) :
    mapGet (mapDelete m k) k' = mapGet m k' := by
  induction m with
  | nil => rfl
  | cons p rest ih =>
    rw [mapDelete_cons]
    by_cases hp : p.1 = k
    · have hk2 : ¬ (p.1 = k') := fun hh => h (hp.symm.trans hh).symm
      rw [if_pos hp, ih, mapGet_cons, if_neg hk2]
    · rw [if_neg hp, mapGet_cons, mapGet_cons]
      by_cases hk' : p.1 = k'
      · rw [if_pos hk', if_pos hk']
      · rw [if_neg hk', if_neg hk', ih]

theorem mapHas_of_mapGet_some (m : List (Nat × α)) (k : Nat) (v : α)
    (h : mapGet m k = some v) : mapHas m k = true := by
  induction m with
  | nil => simp [mapGet] at h
  | cons p rest ih =>
    rw [mapGet_cons] at h
    rw [mapHas_cons]
    by_cases hp : p.1 = k
    · simp [hp]
    · rw [if_neg hp] at h
      simp [ih h]

theorem mapGet_mapDelete_self (m : List (Nat × α)) (k : Nat) :
    mapGet (mapDelete m k) k = none := by
  induction m with
  | nil => rfl
  | cons p rest ih =>
    rw [mapDelete_cons]
    by_cases hp : p.1 = k
    · rw [if_pos hp]; exact ih
    · rw [if_neg hp, mapGet_cons, if_neg hp]; exact ih

theorem mapSet_length_le (m : List (Nat × α)) (k : Nat) (v : α) :
    (mapSet m k v).length ≤ m.length + 1 := by
  unfold mapSet
  by_cases h : mapHas m k
  · rw [if_pos h]; simp
  · rw [if_neg h]; simp

theorem mapDelete_length_le (m : List (Nat × α)) (k : Nat) :
    (mapDelete m k).length ≤ m.length :=
  List.length_filter_le _ m

theorem mapDelete_cons_self (k : Nat) (v : α) (rest : List (Nat × α)) :
    mapDelete ((k, v) :: rest) k = mapDelete rest k := by
  simp [mapDelete, List.filter_cons]

theorem mapDelete_of_not_has (m : List (Nat × α)) (k : Nat)
    (h : mapHas m k = false) : mapDelete m k = m := by
  induction m with
  | nil => rfl
  | cons p rest ih =>
    rw [mapHas_cons, Bool.or_eq_false_iff] at h
    have hp : ¬ (p.1 = k) := by simpa using h.1
    rw [mapDelete_cons, if_neg hp, ih h.2]

theorem mapSet_of_not_has (m : List (Nat × α)) (k : Nat) (v : α)
    (h : mapHas m k = false) : mapSet m k v = m ++ [(k, v)] := by
  unfold mapSet
  rw [if_neg (by simp [h])]

theorem mapDelete_append (l₁ l₂ : List (Nat × α)) (k : Nat) :
    mapDelete (l₁ ++ l₂) k = mapDelete l₁ k ++ mapDelete l₂ k := by
  simp [mapDelete, List.filter_append]

theorem mapGet_eq_none_iff (m : List (Nat × α)) (k : Nat) :
    mapGet m k = none ↔ mapHas m k = false := by
  induction m with
  | nil => simp [mapGet, mapHas]
  | cons p rest ih =>
    rw [mapGet_cons, mapHas_cons]
    by_cases hp : p.1 = k
    · simp [hp]
    · simp [hp, ih]

end MapLemmas

/-! ## Lemmas about event delivery -/

/-- Delivering stdout chunks folds pushChunk over the session's stdout
buffer and leaves the archive, the stderr response buffers and the
promise record untouched, whether or not a response buffer is
registered. -/
theorem deliverStdout_sessions (pid : Nat) (cs : List Chunk) :
    ∀ (st : ManagerState) (s : TerminalSession),
      mapGet st.sessions pid = some s →
      mapGet (deliverStdout st pid cs).sessions pid
          = some { s with stdoutChunks := cs.foldl pushChunk s.stdoutChunks } ∧
      (deliverStdout st pid cs).completedSessions = st.completedSessions ∧
      (deliverStdout st pid cs).responseStderrChunks = st.responseStderrChunks ∧
      (deliverStdout st pid cs).resolved = st.resolved := by
  induction cs with
  | nil =>
    intro st s hs
    exact ⟨by simpa [deliverStdout] using hs, rfl, rfl, rfl⟩
  | cons c rest ih =>
    intro st s hs
    have hd : deliverStdout st pid (c :: rest) =
        deliverStdout (step st (.stdoutData pid c)) pid rest := rfl
    have hsess : (step st (.stdoutData pid c)).sessions =
        mapSet st.sessions pid
          { s with stdoutChunks := limitBufferSize (s.stdoutChunks ++ [c]) } := by
      simp only [step, hs]
    have hcomp : (step st (.stdoutData pid c)).completedSessions =
        st.completedSessions := by
      simp only [step, hs]
    have herr : (step st (.stdoutData pid c)).responseStderrChunks =
        st.responseStderrChunks := by
      simp only [step, hs]
    have hres : (step st (.stdoutData pid c)).resolved = st.resolved := by
      simp only [step, hs]
    have hget : mapGet (step st (.stdoutData pid c)).sessions pid =
        some { s with stdoutChunks := pushChunk s.stdoutChunks c } := by
      rw [hsess]
      exact mapGet_mapSet_self _ _ _
    obtain ⟨h1, h2, h3, h4⟩ := ih (step st (.stdoutData pid c))
      { s with stdoutChunks := pushChunk s.stdoutChunks c } hget
    refine ⟨?_, ?_, ?_, ?_⟩
    · rw [hd, h1]
      rfl
    · rw [hd, h2, hcomp]
    · rw [hd, h3, herr]
    · rw [hd, h4, hres]

/-- The stderr delivery analogue. -/
theorem deliverStderr_sessions (pid : Nat) (cs : List Chunk) :
    ∀ (st : ManagerState) (s : TerminalSession),
      mapGet st.sessions pid = some s →
      mapGet (deliverStderr st pid cs).sessions pid
          = some { s with stderrChunks := cs.foldl pushChunk s.stderrChunks } ∧
      (deliverStderr st pid cs).completedSessions = st.completedSessions ∧
      (deliverStderr st pid cs).responseStdoutChunks = st.responseStdoutChunks ∧
      (deliverStderr st pid cs).resolved = st.resolved := by
  induction cs with
  | nil =>
    intro st s hs
    exact ⟨by simpa [deliverStderr] using hs, rfl, rfl, rfl⟩
  | cons c rest ih =>
    intro st s hs
    have hd : deliverStderr st pid (c :: rest) =
        deliverStderr (step st (.stderrData pid c)) pid rest := rfl
    have hsess : (step st (.stderrData pid c)).sessions =
        mapSet st.sessions pid
          { s with stderrChunks := limitBufferSize (s.stderrChunks ++ [c]) } := by
      simp only [step, hs]
    have hcomp : (step st (.stderrData pid c)).completedSessions =
        st.completedSessions := by
      simp only [step, hs]
    have hout : (step st (.stderrData pid c)).responseStdoutChunks =
        st.responseStdoutChunks := by
      simp only [step, hs]
    have hres : (step st (.stderrData pid c)).resolved = st.resolved := by
      simp only [step, hs]
    have hget : mapGet (step st (.stderrData pid c)).sessions pid =
        some { s with stderrChunks := pushChunk s.stderrChunks c } := by
      rw [hsess]
      exact mapGet_mapSet_self _ _ _
    obtain ⟨h1, h2, h3, h4⟩ := ih (step st (.stderrData pid c))
      { s with stderrChunks := pushChunk s.stderrChunks c } hget
    refine ⟨?_, ?_, ?_, ?_⟩
    · rw [hd, h1]
      rfl
    · rw [hd, h2, hcomp]
    · rw [hd, h3, hout]
    · rw [hd, h4, hres]

/-- While a session and its response buffer are registered, every stdout
data event appends the chunk verbatim to the response buffer: no
eviction is ever applied there. -/
theorem deliverStdout_response (pid : Nat) (cs : List Chunk) :
    ∀ (st : ManagerState) (s : TerminalSession) (r : List Chunk),
      mapGet st.sessions pid = some s →
      mapGet st.responseStdoutChunks pid = some r →
      mapGet (deliverStdout st pid cs).responseStdoutChunks pid
        = some (r ++ cs) := by
  induction cs with
  | nil =>
    intro st s r _ hr
    simpa [deliverStdout] using hr
  | cons c rest ih =>
    intro st s r hs hr
    have hd : deliverStdout st pid (c :: rest) =
        deliverStdout (step st (.stdoutData pid c)) pid rest := rfl
    have hsess : (step st (.stdoutData pid c)).sessions =
        mapSet st.sessions pid
          { s with stdoutChunks := limitBufferSize (s.stdoutChunks ++ [c]) } := by
      simp only [step, hs]
    have hresp : (step st (.stdoutData pid c)).responseStdoutChunks =
        mapSet st.responseStdoutChunks pid (r ++ [c]) := by
      simp only [step, hs, hr]
    have hget : mapGet (step st (.stdoutData pid c)).sessions pid =
        some { s with stdoutChunks := pushChunk s.stdoutChunks c } := by
      rw [hsess]
      exact mapGet_mapSet_self _ _ _
    have hgetr : mapGet (step st (.stdoutData pid c)).responseStdoutChunks pid =
        some (r ++ [c]) := by
      rw [hresp]
      exact mapGet_mapSet_self _ _ _
    have := ih (step st (.stdoutData pid c))
      { s with stdoutChunks := pushChunk s.stdoutChunks c } (r ++ [c]) hget hgetr
    rw [hd, this, List.append_assoc]
    rfl

/-- While a session and its response buffer are registered, every stderr
data event appends the chunk verbatim to the stderr response buffer: no
eviction is ever applied there either. -/
theorem deliverStderr_response (pid : Nat) (cs : List Chunk) :
    ∀ (st : ManagerState) (s : TerminalSession) (r : List Chunk),
      mapGet st.sessions pid = some s →
      mapGet st.responseStderrChunks pid = some r →
      mapGet (deliverStderr st pid cs).responseStderrChunks pid
        = some (r ++ cs) := by
  induction cs with
  | nil =>
    intro st s r _ hr
    simpa [deliverStderr] using hr
  | cons c rest ih =>
    intro st s r hs hr
    have hd : deliverStderr st pid (c :: rest) =
        deliverStderr (step st (.stderrData pid c)) pid rest := rfl
    have hsess : (step st (.stderrData pid c)).sessions =
        mapSet st.sessions pid
          { s with stderrChunks := limitBufferSize (s.stderrChunks ++ [c]) } := by
      simp only [step, hs]
    have hresp : (step st (.stderrData pid c)).responseStderrChunks =
        mapSet st.responseStderrChunks pid (r ++ [c]) := by
      simp only [step, hs, hr]
    have hget : mapGet (step st (.stderrData pid c)).sessions pid =
        some { s with stderrChunks := pushChunk s.stderrChunks c } := by
      rw [hsess]
      exact mapGet_mapSet_self _ _ _
    have hgetr : mapGet (step st (.stderrData pid c)).responseStderrChunks pid =
        some (r ++ [c]) := by
      rw [hresp]
      exact mapGet_mapSet_self _ _ _
    have := ih (step st (.stderrData pid c))
      { s with stderrChunks := pushChunk s.stderrChunks c } (r ++ [c]) hget hgetr
    rw [hd, this, List.append_assoc]
    rfl

/-! ## Lemmas about the exit transition -/

/-- The archive field after an exit of a registered session. -/
theorem step_exited_completed (st : ManagerState) (pid : Nat)
    (s : TerminalSession) (code : Option Int) (t : Nat)
    (hs : mapGet st.sessions pid = some s) :
    (step st (.exited pid code t)).completedSessions =
      (if (mapSet st.completedSessions pid (archiveOf s pid code t)).length >
          COMPLETED_SESSIONS_CAP then
        match (mapSet st.completedSessions pid (archiveOf s pid code t)).head? with
        | some oldest =>
            mapDelete (mapSet st.completedSessions pid (archiveOf s pid code t))
              oldest.1
        | none => mapSet st.completedSessions pid (archiveOf s pid code t)
      else mapSet st.completedSessions pid (archiveOf s pid code t)) := by
  simp only [step, hs, archiveOf]

/-- The registry field after an exit of a registered session. -/
theorem step_exited_sessions (st : ManagerState) (pid : Nat)
    (s : TerminalSession) (code : Option Int) (t : Nat)
    (hs : mapGet st.sessions pid = some s) :
    (step st (.exited pid code t)).sessions = mapDelete st.sessions pid := by
  simp only [step, hs]

/-- The promise record after an exit of a registered session: resolve
with isBlocked = false only when no resolution happened yet. -/
theorem step_exited_resolved (st : ManagerState) (pid : Nat)
    (s : TerminalSession) (code : Option Int) (t : Nat)
    (hs : mapGet st.sessions pid = some s) :
    (step st (.exited pid code t)).resolved =
      (if mapHas st.resolved pid then st.resolved
       else mapSet st.resolved pid false) := by
  simp only [step, hs]

/-- After an exit from a fresh pid and a within-capacity archive, the
new archive entry is retrievable, the registry entry is gone, and the
archive is still within capacity. -/
theorem step_exited_lookup (st : ManagerState) (pid : Nat) (s : TerminalSession)
    (code : Option Int) (t : Nat)
    (hs : mapGet st.sessions pid = some s)
    (hfresh : mapHas st.completedSessions pid = false)
    (hlen : st.completedSessions.length ≤ COMPLETED_SESSIONS_CAP) :
    mapGet (step st (.exited pid code t)).completedSessions pid
        = some (archiveOf s pid code t) ∧
    mapGet (step st (.exited pid code t)).sessions pid = none ∧
    (step st (.exited pid code t)).completedSessions.length ≤
      COMPLETED_SESSIONS_CAP := by
  have hgrown : mapSet st.completedSessions pid (archiveOf s pid code t) =
      st.completedSessions ++ [(pid, archiveOf s pid code t)] :=
    mapSet_of_not_has _ _ _ hfresh
  have hsess : mapGet (step st (.exited pid code t)).sessions pid = none := by
    rw [step_exited_sessions st pid s code t hs]
    exact mapGet_mapDelete_self _ _
  rw [step_exited_completed st pid s code t hs, hgrown]
  by_cases hover :
      (st.completedSessions ++ [(pid, archiveOf s pid code t)]).length >
        COMPLETED_SESSIONS_CAP
  · rw [if_pos hover]
    have hne : st.completedSessions ≠ [] := by
      intro hnil
      rw [hnil] at hover
      simp [COMPLETED_SESSIONS_CAP] at hover
    obtain ⟨q, tail, hq⟩ := List.exists_cons_of_ne_nil hne
    rw [hq, mapHas_cons, Bool.or_eq_false_iff] at hfresh
    have hqpid : pid ≠ q.1 := by
      intro hh
      have := hfresh.1
      rw [hh] at this
      simp at this
    have htail : mapHas tail pid = false := hfresh.2
    rw [hq, List.cons_append, List.head?_cons]
    have hdel : mapDelete (q :: (tail ++ [(pid, archiveOf s pid code t)])) q.1 =
        mapDelete (tail ++ [(pid, archiveOf s pid code t)]) q.1 := by
      rw [mapDelete_cons, if_pos rfl]
    dsimp only
    refine ⟨?_, hsess, ?_⟩
    · rw [hdel, mapGet_mapDelete_ne _ _ _ hqpid]
      exact mapAppend_get _ _ _ htail
    · have h1 := mapDelete_length_le (tail ++ [(pid, archiveOf s pid code t)]) q.1
      have h2 : st.completedSessions.length = tail.length + 1 := by
        rw [hq]; rfl
      rw [hdel]
      simp only [List.length_append, List.length_cons, List.length_nil] at h1 hover ⊢
      omega
  · rw [if_neg hover]
    refine ⟨mapAppend_get _ _ _ hfresh, hsess, ?_⟩
    omega

/-- Archiving into a full archive of pairwise-distinct pids drops
exactly the first-inserted entry and appends the new one at the end. -/
theorem step_exited_evict (st : ManagerState) (pid : Nat) (s : TerminalSession)
    (code : Option Int) (t : Nat)
    (hs : mapGet st.sessions pid = some s)
    (hfresh : mapHas st.completedSessions pid = false)
    (hnodup : (st.completedSessions.map Prod.fst).Nodup)
    (hlen : st.completedSessions.length = COMPLETED_SESSIONS_CAP) :
    (step st (.exited pid code t)).completedSessions =
      st.completedSessions.tail ++ [(pid, archiveOf s pid code t)] := by
  have hgrown : mapSet st.completedSessions pid (archiveOf s pid code t) =
      st.completedSessions ++ [(pid, archiveOf s pid code t)] :=
    mapSet_of_not_has _ _ _ hfresh
  rw [step_exited_completed st pid s code t hs, hgrown]
  have hne : st.completedSessions ≠ [] := by
    intro hnil
    rw [hnil] at hlen
    simp [COMPLETED_SESSIONS_CAP] at hlen
  obtain ⟨q, tail, hq⟩ := List.exists_cons_of_ne_nil hne
  have hover : (st.completedSessions ++ [(pid, archiveOf s pid code t)]).length >
      COMPLETED_SESSIONS_CAP := by
    simp only [List.length_append, hlen]
    simp
  rw [if_pos hover, hq, List.cons_append, List.head?_cons]
  dsimp only
  rw [hq, mapHas_cons, Bool.or_eq_false_iff] at hfresh
  have hqpid : ¬ (pid = q.1) := by
    intro hh
    have := hfresh.1
    rw [hh] at this
    simp at this
  rw [hq, List.map_cons, List.nodup_cons] at hnodup
  have htailq : mapHas tail q.1 = false := by
    cases hh : mapHas tail q.1
    · rfl
    · exact absurd ((mapHas_iff_mem_keys tail q.1).mp hh) hnodup.1
  rw [mapDelete_cons, if_pos rfl, mapDelete_append,
    mapDelete_of_not_has tail q.1 htailq]
  have hsingle : mapDelete [(pid, archiveOf s pid code t)] q.1 =
      [(pid, archiveOf s pid code t)] := by
    apply mapDelete_of_not_has
    rw [mapHas_cons, mapHas_nil, Bool.or_false]
    simpa using hqpid
  rw [hsingle]
  rfl

/-! ## Trace invariants -/

/-- Every single transition keeps the archive within its capacity. -/
theorem step_completed_length (st : ManagerState) (e : Event)
    (h : st.completedSessions.length ≤ COMPLETED_SESSIONS_CAP) :
    (step st e).completedSessions.length ≤ COMPLETED_SESSIONS_CAP := by
  cases e with
  | spawn pid time => simpa [step] using h
  | stdoutData pid data =>
    cases hs : mapGet st.sessions pid <;> simp [step, hs, h]
  | stderrData pid data =>
    cases hs : mapGet st.sessions pid <;> simp [step, hs, h]
  | timeoutFired pid => simpa [step] using h
  | exited pid code time =>
    cases hs : mapGet st.sessions pid with
    | none => simpa [step, hs] using h
    | some s =>
      rw [step_exited_completed st pid s code time hs]
      have hgl := mapSet_length_le st.completedSessions pid
        (archiveOf s pid code time)
      cases hgr : mapSet st.completedSessions pid (archiveOf s pid code time) with
      | nil => simp [COMPLETED_SESSIONS_CAP]
      | cons q rest =>
        rw [hgr] at hgl
        by_cases hover : (q :: rest).length > COMPLETED_SESSIONS_CAP
        · rw [if_pos hover, List.head?_cons]
          dsimp only
          have hd : mapDelete (q :: rest) q.1 = mapDelete rest q.1 := by
            rw [mapDelete_cons, if_pos rfl]
          rw [hd]
          have hdl := mapDelete_length_le rest q.1
          simp only [List.length_cons] at hgl hover
          omega
        · rw [if_neg hover]
          omega

/-- The capacity bound carries over whole traces. -/
theorem foldl_completed_length (es : List Event) :
    ∀ st : ManagerState, st.completedSessions.length ≤ COMPLETED_SESSIONS_CAP →
      ((es.foldl step st).completedSessions).length ≤ COMPLETED_SESSIONS_CAP := by
  induction es with
  | nil => intro st h; exact h
  | cons e rest ih =>
    intro st h
    exact ih (step st e) (step_completed_length st e h)

/-- Transitions whose spawns use pids absent from the archive preserve
registry-archive disjointness. -/
theorem step_disjoint (st : ManagerState) (e : Event)
    (hd : DisjointMaps st)
    (hspawn : ∀ pid t, e = .spawn pid t → mapHas st.completedSessions pid = false) :
    DisjointMaps (step st e) := by
  cases e with
  | spawn pid time =>
    intro p hp
    simp only [step] at hp ⊢
    rw [mapHas_mapSet] at hp
    rcases Bool.or_eq_true_iff.mp hp with hp' | hp'
    · exact hd p hp'
    · have : p = pid := by simpa using hp'
      subst this
      exact hspawn p time rfl
  | stdoutData pid data =>
    intro p hp
    cases hs : mapGet st.sessions pid with
    | none =>
      simp only [step, hs] at hp ⊢
      exact hd p hp
    | some s =>
      simp only [step, hs] at hp ⊢
      rw [mapHas_mapSet] at hp
      rcases Bool.or_eq_true_iff.mp hp with hp' | hp'
      · exact hd p hp'
      · have hpe : p = pid := by simpa using hp'
        subst hpe
        exact hd p (mapHas_of_mapGet_some _ _ _ hs)
  | stderrData pid data =>
    intro p hp
    cases hs : mapGet st.sessions pid with
    | none =>
      simp only [step, hs] at hp ⊢
      exact hd p hp
    | some s =>
      simp only [step, hs] at hp ⊢
      rw [mapHas_mapSet] at hp
      rcases Bool.or_eq_true_iff.mp hp with hp' | hp'
      · exact hd p hp'
      · have hpe : p = pid := by simpa using hp'
        subst hpe
        exact hd p (mapHas_of_mapGet_some _ _ _ hs)
  | timeoutFired pid =>
    intro p hp
    cases hs : mapGet st.sessions pid with
    | none =>
      simp only [step, hs] at hp ⊢
      exact hd p hp
    | some s =>
      simp only [step, hs] at hp ⊢
      rw [mapHas_mapSet] at hp
      rcases Bool.or_eq_true_iff.mp hp with hp' | hp'
      · exact hd p hp'
      · have hpe : p = pid := by simpa using hp'
        subst hpe
        exact hd p (mapHas_of_mapGet_some _ _ _ hs)
  | exited pid code time =>
    intro p hp
    cases hs : mapGet st.sessions pid with
    | none =>
      simp only [step, hs] at hp ⊢
      exact hd p hp
    | some s =>
      rw [step_exited_sessions st pid s code time hs] at hp
      obtain ⟨hps, hppid⟩ := mapHas_mapDelete_imp _ _ _ hp
      rw [step_exited_completed st pid s code time hs]
      have hgrown : mapHas
          (mapSet st.completedSessions pid (archiveOf s pid code time)) p
            = false := by
        rw [mapHas_mapSet]
        have h1 : mapHas st.completedSessions p = false := hd p hps
        simp [h1, hppid]
      cases hgr : mapSet st.completedSessions pid (archiveOf s pid code time) with
      | nil => simp [COMPLETED_SESSIONS_CAP, mapHas]
      | cons q rest =>
        rw [hgr] at hgrown
        by_cases hover : (q :: rest).length > COMPLETED_SESSIONS_CAP
        · rw [if_pos hover, List.head?_cons]
          dsimp only
          cases hk : mapHas (mapDelete (q :: rest) q.1) p
          · rfl
          · obtain ⟨hk1, _⟩ := mapHas_mapDelete_imp _ _ _ hk
            rw [hgrown] at hk1
            exact absurd hk1 (by simp)
        · rw [if_neg hover]
          exact hgrown

/-- Whole traces with archive-fresh spawn pids preserve disjointness. -/
theorem foldl_disjoint (es : List Event) :
    ∀ st : ManagerState, DisjointMaps st → freshSpawns st es = true →
      DisjointMaps (es.foldl step st) := by
  induction es with
  | nil => intro st hd _; exact hd
  | cons e rest ih =>
    intro st hd hf
    simp only [freshSpawns, Bool.and_eq_true] at hf
    refine ih (step st e) ?_ hf.2
    apply step_disjoint st e hd
    intro pid t he
    subst he
    have hf1 := hf.1
    simpa using hf1

/-- Unfolding of getNewOutput on a running session: the drained output
value and the state with both session buffers cleared. -/
theorem getNewOutput_running (st : ManagerState) (pid : Nat)
    (s : TerminalSession) (hs : mapGet st.sessions pid = some s) :
    getNewOutput st pid =
      (some (if (combineOutput s.stdoutChunks s.stderrChunks).isEmpty
          then OutputResult.noNewOutput
          else OutputResult.runningOutput
            (combineOutput s.stdoutChunks s.stderrChunks)),
        { st with sessions := (mapSet st.sessions pid
            { s with stdoutChunks := [], stderrChunks := [] }) }) := by
  simp only [getNewOutput, hs]

/-- Appending one chunk and evicting keeps a buffer within both caps
(modulo the oldest retained chunk for the byte cap) and only drops the
oldest chunks. -/
theorem runAppends_bounds (cs : List Chunk) :
    (runAppends cs).length ≤ MAX_BUFFER_CHUNKS ∧
    getTotalBufferSize (runAppends cs).tail ≤ MAX_OUTPUT_SIZE := by
  induction cs using List.reverseRecOn with
  | nil =>
    constructor
    · simp [runAppends, MAX_BUFFER_CHUNKS]
    · simp [runAppends, getTotalBufferSize]
  | append_singleton ys y _ =>
    have hrun : runAppends (ys ++ [y]) =
        limitBufferSize (runAppends ys ++ [y]) := by
      rw [runAppends, List.foldl_append]
      rfl
    rw [hrun]
    exact ⟨limitBufferSize_length_le _, limitBufferSize_tail_le _⟩

/-- The buffer content after any run of appends is a trailing segment of
the concatenation of everything appended. -/
theorem runAppends_flatten_suffix (cs : List Chunk) :
    ∃ dropped, cs.flatten = dropped ++ (runAppends cs).flatten := by
  induction cs using List.reverseRecOn with
  | nil => exact ⟨[], rfl⟩
  | append_singleton xs x ih =>
    obtain ⟨d0, hd0⟩ := ih
    have hrun : runAppends (xs ++ [x]) = pushChunk (runAppends xs) x := by
      rw [runAppends, List.foldl_append]
      rfl
    obtain ⟨d1, hd1⟩ := limitBufferSize_suffix (runAppends xs ++ [x])
    refine ⟨d0 ++ d1.flatten, ?_⟩
    have h2 : (runAppends xs).flatten ++ x =
        d1.flatten ++ (limitBufferSize (runAppends xs ++ [x])).flatten := by
      have h3 := congrArg List.flatten hd1
      simpa [List.flatten_append] using h3
    rw [List.flatten_append, hd0, hrun, pushChunk]
    have h4 : [x].flatten = x := by simp
    rw [h4, List.append_assoc, h2, ← List.append_assoc]

/-! ## The claims -/

/-- C10: after the byte-size eviction pass of limitBufferSize, the
retained chunks are a contiguous trailing segment of the pre-eviction
buffer, the total size of the retained chunks excluding the oldest
retained one is at most MAX_OUTPUT_SIZE, and hence the aggregate
retained size exceeds MAX_OUTPUT_SIZE by at most the size of the oldest
retained chunk: the chunk at which the backward running total first
crosses the cap is kept, not dropped. -/
theorem C10_size_pass_keeps_crossing_chunk (b : List Chunk) :
    (∃ dropped, b = dropped ++ limitBySize b) ∧
    getTotalBufferSize (limitBySize b).tail ≤ MAX_OUTPUT_SIZE ∧
    getTotalBufferSize (limitBySize b) ≤
      MAX_OUTPUT_SIZE + ((limitBySize b).head?.map List.length).getD 0 :=
  ⟨limitBySize_suffix b, limitBySize_tail_le b, limitBySize_total_le b⟩

/-- C1 counterexample: appending a single chunk of MAX_OUTPUT_SIZE + 1
bytes leaves the buffer holding that chunk, so the aggregate size
exceeds MAX_OUTPUT_SIZE, contrary to the claimed byte bound. -/
theorem C1_counterexample :
    ¬ (getTotalBufferSize
        (runAppends [List.replicate (MAX_OUTPUT_SIZE + 1) 0]) ≤
          MAX_OUTPUT_SIZE) := by
  have h1 : runAppends [List.replicate (MAX_OUTPUT_SIZE + 1) 0] =
      [List.replicate (MAX_OUTPUT_SIZE + 1) 0] := by
    rw [runAppends, List.foldl_cons, List.foldl_nil, pushChunk, List.nil_append,
      limitBufferSize_singleton]
  rw [h1]
  simp only [getTotalBufferSize, List.map_cons, List.map_nil, List.sum_cons,
    List.sum_nil, List.length_replicate]
  omega

/-- C1 (amended): after every sequence of appends with eviction applied,
the session buffer holds at most MAX_BUFFER_CHUNKS chunks and at most
MAX_OUTPUT_SIZE aggregate bytes beyond the single oldest retained chunk
(the aggregate may exceed the cap by at most that chunk), its content is
a trailing segment of the logical concatenation of all appended chunks,
and each eviction removes only the oldest chunks. -/
theorem C1_buffer_bounds (chunks : List Chunk) :
    (runAppends chunks).length ≤ MAX_BUFFER_CHUNKS ∧
    getTotalBufferSize (runAppends chunks).tail ≤ MAX_OUTPUT_SIZE ∧
    (∃ droppedBytes,
      chunks.flatten = droppedBytes ++ (runAppends chunks).flatten) ∧
    (∀ (b : List Chunk) (c : Chunk),
      ∃ droppedChunks, b ++ [c] = droppedChunks ++ pushChunk b c) := by
  obtain ⟨h1, h2⟩ := runAppends_bounds chunks
  exact ⟨h1, h2, runAppends_flatten_suffix chunks,
    fun b c => limitBufferSize_suffix (b ++ [c])⟩

/-- C2 counterexample: after a spawn, 2001 one-byte stdout chunks leave
the stdout Response Buffer with all 2001 chunks, and 2001 one-byte
stderr chunks leave the stderr Response Buffer with all 2001 chunks,
both exceeding MAX_BUFFER_CHUNKS: the bounded-buffer eviction policy is
not applied to either Response Buffer, so they do not stay within the
claimed memory bounds. -/
theorem C2_counterexample :
    mapGet (deliverStdout (step initialState (.spawn 1 0)) 1
        (List.replicate 2001 [0])).responseStdoutChunks 1 =
      some (List.replicate 2001 [0]) ∧
    mapGet (deliverStderr (step initialState (.spawn 1 0)) 1
        (List.replicate 2001 [0])).responseStderrChunks 1 =
      some (List.replicate 2001 [0]) ∧
    ¬ ((List.replicate 2001 ([0] : Chunk)).length ≤ MAX_BUFFER_CHUNKS) := by
  refine ⟨?_, ?_, ?_⟩
  · have h := deliverStdout_response 1 (List.replicate 2001 [0])
      (step initialState (.spawn 1 0)) ⟨1, [], [], false, 0⟩ []
      (by decide) (by decide)
    simpa only [List.nil_append] using h
  · have h := deliverStderr_response 1 (List.replicate 2001 [0])
      (step initialState (.spawn 1 0)) ⟨1, [], [], false, 0⟩ []
      (by decide) (by decide)
    simpa only [List.nil_append] using h
  · intro hle
    rw [List.length_replicate] at hle
    unfold MAX_BUFFER_CHUNKS at hle
    omega

/-- C2 (amended): on each data chunk, delivered on stdout or on stderr,
the listener appends the chunk to both the Response Buffer of that
stream and the matching RunningSession buffer, but the bounded-buffer
eviction policy is applied only to the session buffer (which therefore
respects the 2000-chunk cap and the byte cap up to its oldest retained
chunk); each Response Buffer receives its chunk verbatim with no
eviction. -/
theorem C2_listener_buffers (st : ManagerState) (pid : Nat)
    (s : TerminalSession) (r re : List Chunk) (d : Chunk)
    (hs : mapGet st.sessions pid = some s)
    (hr : mapGet st.responseStdoutChunks pid = some r)
    (hre : mapGet st.responseStderrChunks pid = some re) :
    (mapGet (step st (.stdoutData pid d)).responseStdoutChunks pid
        = some (r ++ [d]) ∧
     mapGet (step st (.stdoutData pid d)).sessions pid =
       some { s with stdoutChunks := limitBufferSize (s.stdoutChunks ++ [d]) } ∧
     (limitBufferSize (s.stdoutChunks ++ [d])).length ≤ MAX_BUFFER_CHUNKS ∧
     getTotalBufferSize (limitBufferSize (s.stdoutChunks ++ [d])).tail ≤
       MAX_OUTPUT_SIZE) ∧
    (mapGet (step st (.stderrData pid d)).responseStderrChunks pid
        = some (re ++ [d]) ∧
     mapGet (step st (.stderrData pid d)).sessions pid =
       some { s with stderrChunks := limitBufferSize (s.stderrChunks ++ [d]) } ∧
     (limitBufferSize (s.stderrChunks ++ [d])).length ≤ MAX_BUFFER_CHUNKS ∧
     getTotalBufferSize (limitBufferSize (s.stderrChunks ++ [d])).tail ≤
       MAX_OUTPUT_SIZE) := by
  have h1 : (step st (.stdoutData pid d)).responseStdoutChunks =
      mapSet st.responseStdoutChunks pid (r ++ [d]) := by
    simp only [step, hs, hr]
  have h2 : (step st (.stdoutData pid d)).sessions =
      mapSet st.sessions pid
        { s with stdoutChunks := limitBufferSize (s.stdoutChunks ++ [d]) } := by
    simp only [step, hs]
  have h3 : (step st (.stderrData pid d)).responseStderrChunks =
      mapSet st.responseStderrChunks pid (re ++ [d]) := by
    simp only [step, hs, hre]
  have h4 : (step st (.stderrData pid d)).sessions =
      mapSet st.sessions pid
        { s with stderrChunks := limitBufferSize (s.stderrChunks ++ [d]) } := by
    simp only [step, hs]
  refine ⟨⟨?_, ?_, limitBufferSize_length_le _, limitBufferSize_tail_le _⟩,
    ⟨?_, ?_, limitBufferSize_length_le _, limitBufferSize_tail_le _⟩⟩
  · rw [h1]; exact mapGet_mapSet_self _ _ _
  · rw [h2]; exact mapGet_mapSet_self _ _ _
  · rw [h3]; exact mapGet_mapSet_self _ _ _
  · rw [h4]; exact mapGet_mapSet_self _ _ _

/-- C2 witness: the amended listener behaviour, for both streams, on a
concrete state. -/
theorem C2_witness :
    (mapGet sampleState1.sessions 1 = some (sampleSession 1) ∧
     mapGet sampleState1.responseStdoutChunks 1 = some [] ∧
     mapGet sampleState1.responseStderrChunks 1 = some []) ∧
    ((mapGet (step sampleState1 (.stdoutData 1 [7])).responseStdoutChunks 1
        = some (([] : List Chunk) ++ [[7]]) ∧
      mapGet (step sampleState1 (.stdoutData 1 [7])).sessions 1 =
        some { sampleSession 1 with
          stdoutChunks := limitBufferSize ((sampleSession 1).stdoutChunks ++ [[7]]) } ∧
      (limitBufferSize ((sampleSession 1).stdoutChunks ++ [[7]])).length ≤
        MAX_BUFFER_CHUNKS ∧
      getTotalBufferSize
        (limitBufferSize ((sampleSession 1).stdoutChunks ++ [[7]])).tail ≤
          MAX_OUTPUT_SIZE) ∧
     (mapGet (step sampleState1 (.stderrData 1 [7])).responseStderrChunks 1
        = some (([] : List Chunk) ++ [[7]]) ∧
      mapGet (step sampleState1 (.stderrData 1 [7])).sessions 1 =
        some { sampleSession 1 with
          stderrChunks := limitBufferSize ((sampleSession 1).stderrChunks ++ [[7]]) } ∧
      (limitBufferSize ((sampleSession 1).stderrChunks ++ [[7]])).length ≤
        MAX_BUFFER_CHUNKS ∧
      getTotalBufferSize
        (limitBufferSize ((sampleSession 1).stderrChunks ++ [[7]])).tail ≤
          MAX_OUTPUT_SIZE)) :=
  ⟨⟨by decide, by decide, by decide⟩,
    C2_listener_buffers sampleState1 1 (sampleSession 1) [] [] [7]
      (by decide) (by decide) (by decide)⟩

/-- C3 counterexample: a command producing exactly 25 MiB of stdout in
1 KiB chunks completes, but its archived entry has outputTruncated =
false, because the chunk-count eviction discarded the data before the
byte total could exceed MAX_OUTPUT_SIZE: the flag is computed from the
retained buffers, not from the produced output. -/
theorem C3_counterexample :
    getTotalBufferSize produced25MiB = 25 * 1024 * 1024 ∧
    MAX_OUTPUT_SIZE < getTotalBufferSize produced25MiB ∧
    mapGet (runEvents (Event.spawn 1 0 ::
        (produced25MiB.map (Event.stdoutData 1) ++
          [Event.exited 1 (some 0) 9]))).completedSessions 1 =
      some ⟨1, List.replicate 2000 chunk1k, [], some 0, 0, 9, false⟩ ∧
    getTotalBufferSize (List.replicate 2000 chunk1k) ≤ MAX_OUTPUT_SIZE := by
  have hck : chunk1k.length = 1024 := by
    rw [chunk1k, List.length_replicate]
  have hret : getTotalBufferSize (List.replicate 2000 chunk1k) = 2048000 := by
    rw [getTotalBufferSize_replicate, hck]
  have hsize : getTotalBufferSize produced25MiB = 25 * 1024 * 1024 := by
    rw [produced25MiB, getTotalBufferSize_replicate, hck]
  refine ⟨hsize, ?_, ?_, ?_⟩
  · rw [hsize]
    norm_num [MAX_OUTPUT_SIZE]
  · have hst1 : step initialState (.spawn 1 0) = sampleState1 := by decide
    have hsplit : runEvents (Event.spawn 1 0 ::
        (produced25MiB.map (Event.stdoutData 1) ++
          [Event.exited 1 (some 0) 9])) =
        step ((produced25MiB.map (Event.stdoutData 1)).foldl step sampleState1)
          (Event.exited 1 (some 0) 9) := by
      rw [runEvents, List.foldl_cons, hst1, List.foldl_append, List.foldl_cons,
        List.foldl_nil]
    have hdeliver :
        (produced25MiB.map (Event.stdoutData 1)).foldl step sampleState1 =
          deliverStdout sampleState1 1 produced25MiB := by
      rw [List.foldl_map]
      rfl
    obtain ⟨hsess, hcomp, _, _⟩ := deliverStdout_sessions 1 produced25MiB
      sampleState1 (sampleSession 1) (by decide)
    have hrun : produced25MiB.foldl pushChunk (sampleSession 1).stdoutChunks =
        List.replicate 2000 chunk1k := by
      show runAppends produced25MiB = _
      rw [produced25MiB, runAppends_replicate]
      · have hmin : min 25600 MAX_BUFFER_CHUNKS = 2000 := by
          unfold MAX_BUFFER_CHUNKS
          omega
        rw [hmin]
      · rw [hck]
        norm_num [MAX_BUFFER_CHUNKS, MAX_OUTPUT_SIZE]
    rw [hrun] at hsess
    have hs2 : ({ sampleSession 1 with
        stdoutChunks := List.replicate 2000 chunk1k } : TerminalSession) =
        retained2000 := rfl
    rw [hs2] at hsess
    have hfresh :
        mapHas (deliverStdout sampleState1 1 produced25MiB).completedSessions 1
          = false := by
      rw [hcomp]
      rfl
    have hlen :
        (deliverStdout sampleState1 1 produced25MiB).completedSessions.length ≤
          COMPLETED_SESSIONS_CAP := by
      rw [hcomp]
      norm_num [sampleState1, COMPLETED_SESSIONS_CAP]
    obtain ⟨harch, _, _⟩ := step_exited_lookup
      (deliverStdout sampleState1 1 produced25MiB) 1 retained2000 (some 0) 9
      hsess hfresh hlen
    rw [hsplit, hdeliver, harch]
    have hflag : decide (getTotalBufferSize retained2000.stdoutChunks +
        getTotalBufferSize retained2000.stderrChunks > MAX_OUTPUT_SIZE)
          = false := by
      have h1 : getTotalBufferSize retained2000.stdoutChunks = 2048000 := hret
      have h2 : getTotalBufferSize retained2000.stderrChunks = 0 := rfl
      rw [decide_eq_false_iff_not, h1, h2]
      norm_num [MAX_OUTPUT_SIZE]
    rw [archiveOf, hflag]
    rfl
  · rw [hret]
    norm_num [MAX_OUTPUT_SIZE]

/-- C3 (amended): the archived outputTruncated flag is computed from the
retained (post-eviction) buffers: it is true iff the retained
stdout+stderr bytes exceed MAX_OUTPUT_SIZE at completion time; a command
whose 25 MiB of produced stdout was discarded by chunk-count eviction is
archived with outputTruncated = false. -/
theorem C3_truncated_iff_retained (st : ManagerState) (pid : Nat)
    (s : TerminalSession) (code : Option Int) (t : Nat)
    (hs : mapGet st.sessions pid = some s)
    (hfresh : mapHas st.completedSessions pid = false)
    (hlen : st.completedSessions.length ≤ COMPLETED_SESSIONS_CAP) :
    mapGet (step st (.exited pid code t)).completedSessions pid
        = some (archiveOf s pid code t) ∧
    ((archiveOf s pid code t).outputTruncated = true ↔
      getTotalBufferSize s.stdoutChunks + getTotalBufferSize s.stderrChunks >
        MAX_OUTPUT_SIZE) ∧
    (archiveOf s pid code t).stdoutChunks = s.stdoutChunks ∧
    (archiveOf s pid code t).stderrChunks = s.stderrChunks := by
  obtain ⟨h1, _, _⟩ := step_exited_lookup st pid s code t hs hfresh hlen
  refine ⟨h1, ?_, rfl, rfl⟩
  simp [archiveOf]

/-- C3 witness: the truncation flag on a concrete exit. -/
theorem C3_witness :
    (mapGet sampleState1.sessions 1 = some (sampleSession 1) ∧
     mapHas sampleState1.completedSessions 1 = false ∧
     sampleState1.completedSessions.length ≤ COMPLETED_SESSIONS_CAP) ∧
    (mapGet (step sampleState1 (.exited 1 (some 0) 3)).completedSessions 1
        = some (archiveOf (sampleSession 1) 1 (some 0) 3) ∧
     ((archiveOf (sampleSession 1) 1 (some 0) 3).outputTruncated = true ↔
       getTotalBufferSize (sampleSession 1).stdoutChunks +
         getTotalBufferSize (sampleSession 1).stderrChunks > MAX_OUTPUT_SIZE) ∧
     (archiveOf (sampleSession 1) 1 (some 0) 3).stdoutChunks =
       (sampleSession 1).stdoutChunks ∧
     (archiveOf (sampleSession 1) 1 (some 0) 3).stderrChunks =
       (sampleSession 1).stderrChunks) :=
  ⟨⟨by decide, by decide, by decide⟩,
    C3_truncated_iff_retained sampleState1 1 (sampleSession 1) (some 0) 3
      (by decide) (by decide) (by decide)⟩

/-- C4 counterexample: a run in which the process exits but the deadline
callback runs first in the same turn resolves with isBlocked = true, not
false: the promise keeps the first value, so exit does not win the tie. -/
theorem C4_counterexample :
    mapGet (runEvents [Event.spawn 1 0, Event.timeoutFired 1,
      Event.exited 1 (some 0) 5]).resolved 1 = some true := by
  decide

/-- C4 (amended): the executeCommand promise resolves with the value of
whichever callback runs first — isBlocked = true if the deadline
callback runs first, isBlocked = false if the exit callback runs first —
and the later callback's resolve attempt is ignored; the code implements
no tie-break in favour of exit. -/
theorem C4_first_resolve_wins (st : ManagerState) (pid : Nat)
    (s : TerminalSession) (code : Option Int) (t : Nat) (b : Bool) :
    (mapGet st.resolved pid = none →
      mapGet (step st (.timeoutFired pid)).resolved pid = some true) ∧
    (mapGet st.resolved pid = none → mapGet st.sessions pid = some s →
      mapGet (step st (.exited pid code t)).resolved pid = some false) ∧
    (mapGet st.resolved pid = some b →
      (step st (.timeoutFired pid)).resolved = st.resolved) ∧
    (mapGet st.resolved pid = some b → mapGet st.sessions pid = some s →
      (step st (.exited pid code t)).resolved = st.resolved) := by
  refine ⟨?_, ?_, ?_, ?_⟩
  · intro hn
    have hh : mapHas st.resolved pid = false := (mapGet_eq_none_iff _ _).mp hn
    have h1 : (step st (.timeoutFired pid)).resolved =
        mapSet st.resolved pid true := by
      simp only [step, hh, Bool.false_eq_true, if_false]
    rw [h1]
    exact mapGet_mapSet_self _ _ _
  · intro hn hs
    have hh : mapHas st.resolved pid = false := (mapGet_eq_none_iff _ _).mp hn
    rw [step_exited_resolved st pid s code t hs, if_neg (by simp [hh])]
    exact mapGet_mapSet_self _ _ _
  · intro hb
    have hh : mapHas st.resolved pid = true :=
      mapHas_of_mapGet_some _ _ _ hb
    simp only [step, hh, if_true]
  · intro hb hs
    have hh : mapHas st.resolved pid = true :=
      mapHas_of_mapGet_some _ _ _ hb
    rw [step_exited_resolved st pid s code t hs, if_pos (by simp [hh])]

/-- C4 witness: the race resolution on concrete states, both orders. -/
theorem C4_witness :
    (mapGet (sampleState1.resolved) 1 = none ∧
     mapGet sampleState1.sessions 1 = some (sampleSession 1)) ∧
    (mapGet (step sampleState1 (.timeoutFired 1)).resolved 1 = some true ∧
     mapGet (step sampleState1 (.exited 1 (some 0) 5)).resolved 1
       = some false) :=
  ⟨⟨by decide, by decide⟩,
    ⟨(C4_first_resolve_wins sampleState1 1 (sampleSession 1) (some 0) 5
        true).1 (by decide),
     (C4_first_resolve_wins sampleState1 1 (sampleSession 1) (some 0) 5
        true).2.1 (by decide) (by decide)⟩⟩

/-- C5 counterexample: 2001 one-byte chunks delivered between two
getNewOutput calls are not all returned by the second call — eviction
dropped the oldest chunk, whose byte is returned by neither call — so
the output produced between consecutive calls is not always returned by
the second call. -/
theorem C5_counterexample :
    (getNewOutput (deliverStdout sampleState1 1 (List.replicate 2001 [0])) 1).1
      = some (OutputResult.runningOutput (List.replicate 2000 0)) ∧
    (List.replicate 2001 ([0] : Chunk)).flatten = List.replicate 2001 (0 : Nat) ∧
    List.replicate 2000 (0 : Nat) ≠ List.replicate 2001 (0 : Nat) := by
  refine ⟨?_, flatten_replicate_singleton 2001 0, ?_⟩
  · obtain ⟨hsess, _, _, _⟩ := deliverStdout_sessions 1 (List.replicate 2001 [0])
      sampleState1 (sampleSession 1) (by decide)
    have hempty : (sampleSession 1).stdoutChunks = ([] : List Chunk) := rfl
    rw [hempty] at hsess
    have hrun0 : runAppends (List.replicate 2001 ([0] : Chunk)) =
        List.replicate 2000 [0] := by
      rw [runAppends_replicate]
      · have hmin : min 2001 MAX_BUFFER_CHUNKS = 2000 := by
          unfold MAX_BUFFER_CHUNKS
          omega
        rw [hmin]
      · norm_num [MAX_BUFFER_CHUNKS, MAX_OUTPUT_SIZE]
    have hfold : (List.replicate 2001 ([0] : Chunk)).foldl pushChunk
        ([] : List Chunk) = runAppends (List.replicate 2001 [0]) := rfl
    rw [hfold, hrun0] at hsess
    rw [getNewOutput_running _ _ _ hsess]
    have hco : combineOutput
        ({ sampleSession 1 with
          stdoutChunks := List.replicate 2000 [0] }).stdoutChunks
        ({ sampleSession 1 with
          stdoutChunks := List.replicate 2000 [0] }).stderrChunks =
        List.replicate 2000 0 := by
      show (List.replicate 2000 ([0] : Chunk)).flatten ++ ([] : List Chunk).flatten
          = List.replicate 2000 0
      rw [flatten_replicate_singleton,
        show ([] : List Chunk).flatten = ([] : List Nat) from rfl,
        List.append_nil]
    rw [hco]
    rw [isEmpty_false_of_length_pos (by rw [List.length_replicate]; omega)]
    rfl
  · intro h
    have hlen := congrArg List.length h
    rw [List.length_replicate, List.length_replicate] at hlen
    omega

/-- C5 (amended): for a running session, getNewOutput returns the
concatenation of the buffered stdout bytes followed by the buffered
stderr bytes, clears both buffers, and returns the literal no-new-output
marker (never an empty output) when both buffers are empty; output
delivered between two consecutive calls is never returned by the first
call, and the second call returns exactly that output whenever it fits
within the buffer caps (at most 2000 chunks and 20 MiB per stream) —
beyond the caps the evicted oldest data is returned by neither call. -/
theorem C5_drain_semantics (st : ManagerState) (pid : Nat)
    (s : TerminalSession) (cs ds : List Chunk)
    (hs : mapGet st.sessions pid = some s)
    (hcn : cs.length ≤ MAX_BUFFER_CHUNKS)
    (hcb : getTotalBufferSize cs ≤ MAX_OUTPUT_SIZE)
    (hdn : ds.length ≤ MAX_BUFFER_CHUNKS)
    (hdb : getTotalBufferSize ds ≤ MAX_OUTPUT_SIZE) :
    (getNewOutput st pid).1 =
      some (if (combineOutput s.stdoutChunks s.stderrChunks).isEmpty
        then OutputResult.noNewOutput
        else OutputResult.runningOutput
          (combineOutput s.stdoutChunks s.stderrChunks)) ∧
    (s.stdoutChunks = [] → s.stderrChunks = [] →
      (getNewOutput st pid).1 = some OutputResult.noNewOutput) ∧
    ((getNewOutput st pid).1 ≠ some (OutputResult.runningOutput [])) ∧
    mapGet (getNewOutput st pid).2.sessions pid =
      some { s with stdoutChunks := [], stderrChunks := [] } ∧
    (getNewOutput (deliverStderr
        (deliverStdout (getNewOutput st pid).2 pid cs) pid ds) pid).1 =
      some (if (cs.flatten ++ ds.flatten).isEmpty
        then OutputResult.noNewOutput
        else OutputResult.runningOutput (cs.flatten ++ ds.flatten)) := by
  have h0 := getNewOutput_running st pid s hs
  refine ⟨?_, ?_, ?_, ?_, ?_⟩
  · rw [h0]
  · intro h1 h2
    rw [h0]
    dsimp only
    rw [h1, h2]
    rfl
  · rw [h0]
    dsimp only
    by_cases hE : (combineOutput s.stdoutChunks s.stderrChunks).isEmpty = true
    · rw [if_pos hE]
      simp
    · rw [if_neg hE]
      intro hco
      simp only [Option.some.injEq, OutputResult.runningOutput.injEq] at hco
      rw [hco] at hE
      exact hE rfl
  · rw [h0]
    dsimp only
    exact mapGet_mapSet_self _ _ _
  · have hs1 : mapGet (getNewOutput st pid).2.sessions pid =
        some { s with stdoutChunks := [], stderrChunks := [] } := by
      rw [h0]
      dsimp only
      exact mapGet_mapSet_self _ _ _
    obtain ⟨hA, _, _, _⟩ := deliverStdout_sessions pid cs (getNewOutput st pid).2
      { s with stdoutChunks := [], stderrChunks := [] } hs1
    have hfoldc :
        cs.foldl pushChunk ({ s with stdoutChunks := ([] : List Chunk), stderrChunks := ([] : List Chunk) }).stdoutChunks = cs := by
      show runAppends cs = cs
      exact runAppends_of_le cs hcn hcb
    rw [hfoldc] at hA
    obtain ⟨hB, _, _, _⟩ := deliverStderr_sessions pid ds
      (deliverStdout (getNewOutput st pid).2 pid cs) _ hA
    have hfoldd :
        ds.foldl pushChunk ({ { s with stdoutChunks := ([] : List Chunk), stderrChunks := ([] : List Chunk) } with stdoutChunks := cs }).stderrChunks = ds := by
      show runAppends ds = ds
      exact runAppends_of_le ds hdn hdb
    rw [hfoldd] at hB
    rw [getNewOutput_running _ _ _ hB]
    rfl

/-- C5 witness: drain semantics on a concrete running session with one
stdout chunk and one stderr chunk, polling with small deliveries. -/
theorem C5_witness :
    (mapGet sampleState2.sessions 1 = some sampleSession2 ∧
     ([[1]] : List Chunk).length ≤ MAX_BUFFER_CHUNKS ∧
     getTotalBufferSize [[1]] ≤ MAX_OUTPUT_SIZE ∧
     ([[2]] : List Chunk).length ≤ MAX_BUFFER_CHUNKS ∧
     getTotalBufferSize [[2]] ≤ MAX_OUTPUT_SIZE) ∧
    ((getNewOutput sampleState2 1).1 =
      some (if (combineOutput sampleSession2.stdoutChunks
          sampleSession2.stderrChunks).isEmpty
        then OutputResult.noNewOutput
        else OutputResult.runningOutput
          (combineOutput sampleSession2.stdoutChunks
            sampleSession2.stderrChunks)) ∧
     (sampleSession2.stdoutChunks = [] → sampleSession2.stderrChunks = [] →
       (getNewOutput sampleState2 1).1 = some OutputResult.noNewOutput) ∧
     ((getNewOutput sampleState2 1).1 ≠
       some (OutputResult.runningOutput [])) ∧
     mapGet (getNewOutput sampleState2 1).2.sessions 1 =
       some { sampleSession2 with stdoutChunks := [], stderrChunks := [] } ∧
     (getNewOutput (deliverStderr
         (deliverStdout (getNewOutput sampleState2 1).2 1 [[1]]) 1 [[2]]) 1).1 =
       some (if (([[1]] : List Chunk).flatten ++
           ([[2]] : List Chunk).flatten).isEmpty
         then OutputResult.noNewOutput
         else OutputResult.runningOutput
           (([[1]] : List Chunk).flatten ++ ([[2]] : List Chunk).flatten))) :=
  ⟨⟨by decide, by decide, by decide, by decide, by decide⟩,
    C5_drain_semantics sampleState2 1 sampleSession2 [[1]] [[2]]
      (by decide) (by decide) (by decide) (by decide) (by decide)⟩

/-- C6: the Completion Archive never exceeds 100 entries over any trace,
and archiving into a full archive (100 entries, pairwise distinct pids,
new pid fresh) drops exactly the first-inserted entry and appends the new
one, leaving exactly 100 entries. -/
theorem C6_archive_retention :
    (∀ es : List Event,
      ((runEvents es).completedSessions).length ≤ COMPLETED_SESSIONS_CAP) ∧
    (∀ (st : ManagerState) (pid : Nat) (s : TerminalSession)
        (code : Option Int) (t : Nat),
      mapGet st.sessions pid = some s →
      mapHas st.completedSessions pid = false →
      (st.completedSessions.map Prod.fst).Nodup →
      st.completedSessions.length = COMPLETED_SESSIONS_CAP →
      (step st (.exited pid code t)).completedSessions =
        st.completedSessions.tail ++ [(pid, archiveOf s pid code t)] ∧
      (step st (.exited pid code t)).completedSessions.length =
        COMPLETED_SESSIONS_CAP) := by
  constructor
  · intro es
    exact foldl_completed_length es initialState
      (by simp [initialState, COMPLETED_SESSIONS_CAP])
  · intro st pid s code t hs hfresh hnodup hlen
    have hev := step_exited_evict st pid s code t hs hfresh hnodup hlen
    refine ⟨hev, ?_⟩
    rw [hev, List.length_append, List.length_tail, hlen]
    have hcap : COMPLETED_SESSIONS_CAP = 100 := rfl
    simp only [List.length_cons, List.length_nil]
    omega

/-- C6 witness: archiving a 101st completed session on a concrete full
archive evicts the first-inserted entry and leaves exactly 100. -/
theorem C6_witness :
    (mapGet bigState.sessions 200 = some (sampleSession 200) ∧
     mapHas bigState.completedSessions 200 = false ∧
     (bigState.completedSessions.map Prod.fst).Nodup ∧
     bigState.completedSessions.length = COMPLETED_SESSIONS_CAP) ∧
    ((step bigState (.exited 200 (some 0) 7)).completedSessions =
      bigState.completedSessions.tail ++
        [(200, archiveOf (sampleSession 200) 200 (some 0) 7)] ∧
     (step bigState (.exited 200 (some 0) 7)).completedSessions.length =
       COMPLETED_SESSIONS_CAP) :=
  ⟨⟨by decide, by decide, by decide, by decide⟩,
    C6_archive_retention.2 bigState 200 (sampleSession 200) (some 0) 7
      (by decide) (by decide) (by decide) (by decide)⟩

/-- C7: forceTerminate returns false with no side effects when the pid
has no RunningSession, returns false (error caught internally) when the
interrupt dispatch throws, and otherwise sends the interrupt, schedules
the unconditional kill after the 1000 ms grace period and returns true
immediately; the scheduled kill fires at the later time exactly when the
session is still present in the Registry. -/
theorem C7_forceTerminate_spec (st : ManagerState) (pid : Nat) (thr : Bool)
    (later : ManagerState) :
    (mapGet st.sessions pid = none →
      forceTerminate st pid thr = ⟨false, false, false, 0⟩) ∧
    (∀ s, mapGet st.sessions pid = some s → thr = true →
      forceTerminate st pid thr = ⟨false, false, false, 0⟩) ∧
    (∀ s, mapGet st.sessions pid = some s → thr = false →
      forceTerminate st pid thr = ⟨true, true, true, GRACE_PERIOD_MS⟩) ∧
    (killTimerFires later pid = mapHas later.sessions pid) := by
  refine ⟨?_, ?_, ?_, rfl⟩
  · intro hn
    simp only [forceTerminate, hn]
  · intro s hs ht
    simp only [forceTerminate, hs, ht, if_true]
  · intro s hs ht
    simp only [forceTerminate, hs, ht, Bool.false_eq_true, if_false]

/-- C7 witness: termination outcomes on concrete states. -/
theorem C7_witness :
    (mapGet initialState.sessions 1 = none ∧
     mapGet sampleState1.sessions 1 = some (sampleSession 1)) ∧
    (forceTerminate initialState 1 false = ⟨false, false, false, 0⟩ ∧
     forceTerminate sampleState1 1 true = ⟨false, false, false, 0⟩ ∧
     forceTerminate sampleState1 1 false = ⟨true, true, true, GRACE_PERIOD_MS⟩ ∧
     killTimerFires initialState 1 = mapHas initialState.sessions 1) :=
  ⟨⟨by decide, by decide⟩,
    ⟨(C7_forceTerminate_spec initialState 1 false initialState).1 (by decide),
     (C7_forceTerminate_spec sampleState1 1 true initialState).2.1
       (sampleSession 1) (by decide) rfl,
     (C7_forceTerminate_spec sampleState1 1 false initialState).2.2.1
       (sampleSession 1) (by decide) rfl,
     (C7_forceTerminate_spec sampleState1 1 false initialState).2.2.2⟩⟩

/-- C8: for a pid whose lookup reaches the Completion Archive (no
RunningSession shadows it), getNewOutput returns the formatted summary
built from the archived exit code, two-decimal runtime, truncation
warning flag and final combined output, leaves the state untouched, and
returns the identical value on repeated calls; for a pid absent from
both maps it returns null. -/
theorem C8_completed_idempotent (st : ManagerState) (pid : Nat) :
    (∀ cs, mapGet st.sessions pid = none →
      mapGet st.completedSessions pid = some cs →
      getNewOutput st pid =
        (some (.completedMessage (formatCompleted cs)), st) ∧
      getNewOutput (getNewOutput st pid).2 pid = getNewOutput st pid) ∧
    (mapGet st.sessions pid = none → mapGet st.completedSessions pid = none →
      getNewOutput st pid = (none, st)) := by
  constructor
  · intro cs hns hcs
    have h1 : getNewOutput st pid =
        (some (.completedMessage (formatCompleted cs)), st) := by
      simp only [getNewOutput, hns, hcs]
    refine ⟨h1, ?_⟩
    rw [h1]
    exact h1
  · intro hns hcs
    simp only [getNewOutput, hns, hcs]

/-- C8 witness: idempotent summary of a concrete archived session, and
null for an unknown pid. -/
theorem C8_witness :
    (mapGet completedState9.sessions 9 = none ∧
     mapGet completedState9.completedSessions 9 = some (sampleCompleted 9) ∧
     mapGet completedState9.sessions 3 = none ∧
     mapGet completedState9.completedSessions 3 = none) ∧
    ((getNewOutput completedState9 9 =
        (some (.completedMessage (formatCompleted (sampleCompleted 9))),
          completedState9) ∧
      getNewOutput (getNewOutput completedState9 9).2 9 =
        getNewOutput completedState9 9) ∧
     getNewOutput completedState9 3 = (none, completedState9)) :=
  ⟨⟨by decide, by decide, by decide, by decide⟩,
    ⟨(C8_completed_idempotent completedState9 9).1 (sampleCompleted 9)
        (by decide) (by decide),
     (C8_completed_idempotent completedState9 3).2 (by decide) (by decide)⟩⟩

/-- C9 counterexample: run pid 5 to completion, then spawn a new process
that reuses pid 5 — the pid is now present in the Session Registry and
the Completion Archive at the same time. -/
theorem C9_counterexample :
    mapHas (runEvents [Event.spawn 5 0, Event.exited 5 (some 0) 1,
      Event.spawn 5 2]).sessions 5 = true ∧
    mapHas (runEvents [Event.spawn 5 0, Event.exited 5 (some 0) 1,
      Event.spawn 5 2]).completedSessions 5 = true := by
  decide

/-- C9 (amended): as long as no spawn reuses a pid still present in the
Completion Archive, every pid is in at most one of the Session Registry
and the Completion Archive at every reachable state; the transition from
one to the other happens in the single exit step, which simultaneously
removes the registry entry and adds the archive entry.  When a spawn
does reuse an archived pid, that pid is present in both maps at once. -/
theorem C9_registry_archive_disjoint :
    (∀ es : List Event, freshSpawns initialState es = true →
      DisjointMaps (runEvents es)) ∧
    (∀ (st : ManagerState) (pid : Nat) (s : TerminalSession)
        (code : Option Int) (t : Nat),
      mapGet st.sessions pid = some s →
      mapHas st.completedSessions pid = false →
      st.completedSessions.length ≤ COMPLETED_SESSIONS_CAP →
      mapGet (step st (.exited pid code t)).sessions pid = none ∧
      mapGet (step st (.exited pid code t)).completedSessions pid =
        some (archiveOf s pid code t)) := by
  constructor
  · intro es hf
    apply foldl_disjoint es initialState _ hf
    intro p hp
    simp [initialState, mapHas] at hp
  · intro st pid s code t hs hfresh hlen
    obtain ⟨h1, h2, _⟩ := step_exited_lookup st pid s code t hs hfresh hlen
    exact ⟨h2, h1⟩

/-- C9 witness: disjointness along a concrete reuse-free trace, and the
atomic registry-to-archive move on a concrete exit. -/
theorem C9_witness :
    (freshSpawns initialState demoTrace = true ∧
     DisjointMaps (runEvents demoTrace)) ∧
    ((mapGet sampleState1.sessions 1 = some (sampleSession 1) ∧
      mapHas sampleState1.completedSessions 1 = false ∧
      sampleState1.completedSessions.length ≤ COMPLETED_SESSIONS_CAP) ∧
     (mapGet (step sampleState1 (.exited 1 (some 0) 3)).sessions 1 = none ∧
      mapGet (step sampleState1 (.exited 1 (some 0) 3)).completedSessions 1 =
        some (archiveOf (sampleSession 1) 1 (some 0) 3))) :=
  ⟨⟨by decide, C9_registry_archive_disjoint.1 demoTrace (by decide)⟩,
   ⟨⟨by decide, by decide, by decide⟩,
    C9_registry_archive_disjoint.2 sampleState1 1 (sampleSession 1) (some 0) 3
      (by decide) (by decide) (by decide)⟩⟩

end DesktopCommander
